import Mathlib

/-!
# Verification of the jobqueue-monitor client data pipeline

Shallow embedding of the pure data-transformation layer of the
`jobqueue_monitor` Python package (`utils.py`, `screens/job.py`,
`screens/queue.py`) together with the fragments of the Python runtime and
standard library the code relies on (dict semantics, `str` methods, `int()`
parsing, the `re` module).

Conventions:
* JSON-shaped Python values are modelled by `Value`; Python dicts are
  insertion-ordered association lists with unique keys maintained by
  `setKey` (assignment keeps the position of an existing key).
* A Python function that can raise is modelled with `Except PyErr`;
  `.error` means the exception propagates to the caller.
* Strings are processed as `List Char` (Python strings are sequences of
  code points; Lean `Char` is a unicode scalar value).
-/

namespace JQM

/-- Python exceptions raised by the modelled code paths. -/
inductive PyErr where
  | keyError (k : String)
  | valueError
  | typeError
  | attributeError
  | indexError
  | patternError
  | unsupportedModel
deriving DecidableEq, Repr

/-- JSON-shaped Python values: `None`, `bool`, `int`, `str`, `list`, `dict`
(string keys, insertion ordered). -/
inductive Value where
  | null
  | bool (b : Bool)
  | int (n : Int)
  | str (s : String)
  | list (vs : List Value)
  | dict (kvs : List (String × Value))

mutual

/-- Structural equality test for `Value` (deriving cannot handle the
nested inductive). -/
def Value.beq : Value → Value → Bool
  | .null, .null => true
  | .bool a, .bool b => a == b
  | .int a, .int b => a == b
  | .str a, .str b => a == b
  | .list as, .list bs => beqVList as bs
  | .dict as, .dict bs => beqVDict as bs
  | _, _ => false

/-- See `Value.beq`. -/
def beqVList : List Value → List Value → Bool
  | [], [] => true
  | a :: as, b :: bs => Value.beq a b && beqVList as bs
  | _, _ => false

/-- See `Value.beq`. -/
def beqVDict : List (String × Value) → List (String × Value) → Bool
  | [], [] => true
  | (k, v) :: as, (k', v') :: bs => k == k' && Value.beq v v' && beqVDict as bs
  | _, _ => false

end

mutual

theorem Value.beq_refl : ∀ (a : Value), Value.beq a a = true
  | .null => rfl
  | .bool a => by simp [Value.beq]
  | .int a => by simp [Value.beq]
  | .str a => by simp [Value.beq]
  | .list as => by simp [Value.beq, beqVList_refl as]
  | .dict as => by simp [Value.beq, beqVDict_refl as]

theorem beqVList_refl : ∀ (as : List Value), beqVList as as = true
  | [] => rfl
  | a :: as => by simp [beqVList, Value.beq_refl a, beqVList_refl as]

theorem beqVDict_refl : ∀ (as : List (String × Value)), beqVDict as as = true
  | [] => rfl
  | (k, v) :: as => by simp [beqVDict, Value.beq_refl v, beqVDict_refl as]

end

mutual

theorem Value.eq_of_beq : ∀ {a b : Value}, Value.beq a b = true → a = b
  | .null, .null, _ => rfl
  | .bool a, .bool b, h => by simpa [Value.beq] using h
  | .int a, .int b, h => by simpa [Value.beq] using h
  | .str a, .str b, h => by simpa [Value.beq] using h
  | .list as, .list bs, h =>
    congrArg Value.list (eq_of_beqVList (by simpa [Value.beq] using h))
  | .dict as, .dict bs, h =>
    congrArg Value.dict (eq_of_beqVDict (by simpa [Value.beq] using h))
  | .null, .bool _, h | .null, .int _, h | .null, .str _, h
  | .null, .list _, h | .null, .dict _, h
  | .bool _, .null, h | .bool _, .int _, h | .bool _, .str _, h
  | .bool _, .list _, h | .bool _, .dict _, h
  | .int _, .null, h | .int _, .bool _, h | .int _, .str _, h
  | .int _, .list _, h | .int _, .dict _, h
  | .str _, .null, h | .str _, .bool _, h | .str _, .int _, h
  | .str _, .list _, h | .str _, .dict _, h
  | .list _, .null, h | .list _, .bool _, h | .list _, .int _, h
  | .list _, .str _, h | .list _, .dict _, h
  | .dict _, .null, h | .dict _, .bool _, h | .dict _, .int _, h
  | .dict _, .str _, h | .dict _, .list _, h => by simp [Value.beq] at h

theorem eq_of_beqVList : ∀ {as bs : List Value}, beqVList as bs = true → as = bs
  | [], [], _ => rfl
  | a :: as, b :: bs, h => by
    have h' := h
    simp only [beqVList, Bool.and_eq_true] at h'
    rw [Value.eq_of_beq h'.1, eq_of_beqVList h'.2]
  | [], _ :: _, h | _ :: _, [], h => by simp [beqVList] at h

theorem eq_of_beqVDict :
    ∀ {as bs : List (String × Value)}, beqVDict as bs = true → as = bs
  | [], [], _ => rfl
  | (k, v) :: as, (k', v') :: bs, h => by
    have h' := h
    simp only [beqVDict, Bool.and_eq_true, beq_iff_eq] at h'
    rw [h'.1.1, Value.eq_of_beq h'.1.2, eq_of_beqVDict h'.2]
  | [], _ :: _, h | _ :: _, [], h => by simp [beqVDict] at h

end

instance : DecidableEq Value := fun a b =>
  decidable_of_iff (Value.beq a b = true)
    ⟨Value.eq_of_beq, fun h => h ▸ Value.beq_refl a⟩

instance {ε α : Type} [DecidableEq ε] [DecidableEq α] :
    DecidableEq (Except ε α) := fun x y =>
  match x, y with
  | .ok a, .ok b =>
    if h : a = b then isTrue (by rw [h])
    else isFalse (fun hh => h (by injection hh))
  | .error e, .error f =>
    if h : e = f then isTrue (by rw [h])
    else isFalse (fun hh => h (by injection hh))
  | .ok _, .error _ => isFalse (fun hh => by injection hh)
  | .error _, .ok _ => isFalse (fun hh => by injection hh)

/-- Association-list lookup, first occurrence (Python dicts have unique
keys, so this matches `d[k]` / `d.get(k)`). -/
def alookup {α : Type} : List (String × α) → String → Option α
  | [], _ => none
  | (k', v) :: rest, k => if k' = k then some v else alookup rest k

/-- Python dict assignment `d[k] = v`: replaces the value at the first
occurrence of `k` keeping its position, otherwise appends. -/
def setKey {α : Type} : List (String × α) → String → α → List (String × α)
  | [], k, v => [(k, v)]
  | (k', v') :: rest, k, v =>
    if k' = k then (k, v) :: rest else (k', v') :: setKey rest k v

/-- Python `d.get(k, default)`. -/
def agetD {α : Type} (l : List (String × α)) (k : String) (d : α) : α :=
  (alookup l k).getD d

/-- Python truthiness (`bool(v)`) for JSON-shaped values. -/
def pyTruthy : Value → Bool
  | .null => false
  | .bool b => b
  | .int n => n ≠ 0
  | .str s => s ≠ ""
  | .list vs => !vs.isEmpty
  | .dict kvs => !kvs.isEmpty

/-- Subscription `v[k]` with a string key: `KeyError` when the key is
absent, `TypeError` on non-dict values. -/
def getItem (v : Value) (k : String) : Except PyErr Value :=
  match v with
  | .dict kvs =>
    match alookup kvs k with
    | some x => .ok x
    | none => .error (.keyError k)
  | _ => .error .typeError

/-- `.items()` / `.get(...)` on a value expected to be a dict:
`AttributeError` otherwise. -/
def asDict (v : Value) : Except PyErr (List (String × Value)) :=
  match v with
  | .dict kvs => .ok kvs
  | _ => .error .attributeError

/-- Python dict keys must be hashable: `list` and `dict` raise `TypeError`
when used as lookup keys. -/
def isHashable : Value → Bool
  | .list _ => false
  | .dict _ => false
  | _ => true

/-! ## Python string helpers

The Python code uses `str.lower`, `str.strip`, `str.split` (with and
without separator), `str.removeprefix`, `str.lstrip("_")` and `int(...)`.
They are modelled here on `List Char`. Unicode-dependent behaviour
(`str.lower` beyond ASCII, the full Unicode digit tables behind
`str.isdigit` and `int`) is modelled for strings over ASCII plus the
superscript digits `¹ ² ³`, which Python's `str.isdigit` accepts but
`int(...)` rejects. -/

/-- Python `str.lower`, ASCII model (`Char.toLower` lowers `A`–`Z`). -/
def pyLower (s : String) : String := ⟨s.data.map Char.toLower⟩

/-- ASCII whitespace recognised by Python's default `strip`/`split`. -/
def pyIsSpace (c : Char) : Bool :=
  c = ' ' || c = '\t' || c = '\n' || c = '\r' || c = '\x0b' || c = '\x0c'

/-- Python `str.strip()` (whitespace from both ends). -/
def pyStrip (cs : List Char) : List Char :=
  ((cs.dropWhile pyIsSpace).reverse.dropWhile pyIsSpace).reverse

/-- Python `str.split()` with no separator: split on whitespace runs,
discarding empty pieces. -/
def pySplitWs (cs : List Char) : List (List Char) :=
  (cs.splitOnP pyIsSpace).filter (· ≠ [])

/-- Python `str.split(":")`: split on every colon, keeping empty pieces. -/
def pySplitColon (cs : List Char) : List (List Char) :=
  cs.splitOnP (· = ':')

/-- Python `str.removeprefix`. -/
def pyRemovePre (s pre : List Char) : List Char :=
  if pre.isPrefixOf s then s.drop pre.length else s

/-- Python `str.lstrip("_")`. -/
def pyLstripUnderscore (s : List Char) : List Char :=
  s.dropWhile (· = '_')

/-- Unicode digit characters beyond `0`–`9` covered by the model: the
superscripts `¹ ² ³` have the Unicode `digit` property (so Python's
`str.isdigit` is true for them) but are not decimal digits (so `int(...)`
raises `ValueError` on them). -/
def isSuperscriptDigit (c : Char) : Bool :=
  c = '¹' || c = '²' || c = '³'

/-- Python `str.isdigit` on one character (model scope: ASCII plus the
superscript digits). -/
def pyIsDigitChar (c : Char) : Bool :=
  c.isDigit || isSuperscriptDigit c

/-- Python `str.isdigit`: nonempty and every character a digit. -/
def pyIsdigit (cs : List Char) : Bool :=
  !cs.isEmpty && cs.all pyIsDigitChar

/-- Numeric value of a run of ASCII decimal digits. -/
def digitsToNat (cs : List Char) : Nat :=
  cs.foldl (fun acc c => acc * 10 + (c.toNat - 48)) 0

/-- Grammar of the digit part accepted by Python `int(...)`:
one or more decimal digits with single underscores strictly between
digits (`"1_0"` is accepted, `"_1"`, `"1_"`, `"1__0"` are not).
`decDigitsRest` accepts what may follow a digit. -/
def decDigitsRest : List Char → Bool
  | [] => true
  | '_' :: rest =>
    match rest with
    | c :: rest' => c.isDigit && decDigitsRest rest'
    | [] => false
  | c :: rest => c.isDigit && decDigitsRest rest

/-- See `decDigitsRest`: a full digit group for `int(...)`. -/
def decDigits : List Char → Bool
  | [] => false
  | c :: rest => c.isDigit && decDigitsRest rest

/-- The sign-and-digits part of `int(str)`: optional single sign, then
decimal digits with underscores between digits. -/
def pyIntCore : List Char → Except PyErr Int
  | '+' :: rest =>
    if decDigits rest then .ok (digitsToNat (rest.filter (· ≠ '_')))
    else .error .valueError
  | '-' :: rest =>
    if decDigits rest then .ok (-(digitsToNat (rest.filter (· ≠ '_')) : Int))
    else .error .valueError
  | rest =>
    if decDigits rest then .ok (digitsToNat (rest.filter (· ≠ '_')))
    else .error .valueError

/-- Python `int(str)` in base 10 (model scope: ASCII): strips
surrounding whitespace, then sign and digits; anything else raises
`ValueError`. -/
def pyInt (cs : List Char) : Except PyErr Int := pyIntCore (pyStrip cs)

/-! ## `utils.py` -/

mutual

/-- `translate_json` (`utils.py`): structural walk over JSON-shaped data.
The source's first match arm is `case "True" | "False" as obj: return
bool(obj)`; Python's `bool` on a *nonempty string* is `True`, so both
`"True"` and `"False"` are converted to the boolean `True`. -/
def translate_json : Value → Value
  | .str "True" => .bool true
  | .str "False" => .bool true
  | .dict kvs => .dict (translateVDict kvs)
  | .list vs => .list (translateVList vs)
  | v => v

/-- The walk of `translate_json` over the elements of a list. -/
def translateVList : List Value → List Value
  | [] => []
  | v :: vs => translate_json v :: translateVList vs

/-- The walk of `translate_json` over the entries of a dict: keys are
kept, values are translated. -/
def translateVDict : List (String × Value) → List (String × Value)
  | [] => []
  | (k, v) :: kvs => (k, translate_json v) :: translateVDict kvs

end

/-- `re.split(r"([0-9]+)", s)`: alternating pieces, starting and ending
with a (possibly empty) non-digit piece, with the maximal `[0-9]+` runs
kept as the odd-position pieces. -/
def splitDigitRuns : List Char → List (List Char)
  | [] => [[]]
  | c :: cs =>
    match c.isDigit, splitDigitRuns cs with
    | false, [] => [[c]]
    | false, t :: rest => (c :: t) :: rest
    | true, [] :: r :: rest => [] :: (c :: r) :: rest
    | true, split => [] :: [c] :: split

/-- One entry of a natural-sort key: digit runs become integers, the
other pieces stay strings. -/
inductive SortToken where
  | s (v : String)
  | n (v : Int)
deriving DecidableEq, Repr

/-- `natural_sort_key` (`utils.py`): split on digit runs, convert the
pieces Python's `str.isdigit` accepts with `int(...)` — which raises
`ValueError` on digit-property characters that are not decimal digits
(e.g. `"²"`). -/
def natural_sort_key (s : String) : Except PyErr (List SortToken) :=
  (splitDigitRuns s.data).mapM fun part =>
    if pyIsdigit part then (pyInt part).map .n
    else .ok (.s ⟨part⟩)

/-! ## Lexicographic comparison

Python compares the key lists element-wise: at the first index where the
elements differ the element order decides, otherwise the shorter list is
smaller. Comparing an `int` to a `str` raises `TypeError` in Python; in a
natural-sort key, strings sit at even and integers at odd positions, so
two keys are never compared across kinds at the same position and any
completion of the order is observationally identical — the model puts
integers below strings. -/

/-- Generic lexicographic strict comparison of lists from a strict
comparison of elements. -/
def lexLtb {α : Type} [DecidableEq α] (lt : α → α → Bool) :
    List α → List α → Bool
  | _, [] => false
  | [], _ :: _ => true
  | a :: as, b :: bs => if a = b then lexLtb lt as bs else lt a b

/-- Python `str < str`: code-point lexicographic. -/
def strLtb (a b : String) : Bool :=
  lexLtb (fun c d => decide (c < d)) a.data b.data

/-- Strict order on sort tokens (cross-kind order is an unobservable
completion, see above). -/
def SortToken.ltb : SortToken → SortToken → Bool
  | .n a, .n b => decide (a < b)
  | .s a, .s b => strLtb a b
  | .n _, .s _ => true
  | .s _, .n _ => false

/-- Python `<` on two natural-sort keys. -/
def keyLtb (a b : List SortToken) : Bool :=
  lexLtb SortToken.ltb a b

/-! ## The `re` module

The screens use `re.compile(pattern)` and `compiled.match(string)`
(matching anchored at the *start* of the string, succeeding on any
matching prefix). The fragment of Python's regular-expression language
the model covers: literal characters, `.` (any character but newline),
`^` (asserts the start of the string), groups `( )`, alternation `|` and
the postfix operators `* + ?`. Constructs outside this fragment
(classes, escapes, `$`, braces, lazy quantifiers) are reported as
`.unsupported` — distinct from `.invalid`, which marks patterns
`re.compile` itself rejects (unbalanced parentheses, dangling postfix
operators, multiple repeats). -/

/-- Abstract syntax of the modelled regular expressions. -/
inductive Regex where
  | fail
  | eps
  | char (c : Char)
  | dot
  | bol
  | seq (r1 r2 : Regex)
  | alt (r1 r2 : Regex)
  | star (r : Regex)
deriving DecidableEq, Repr

/-- Does the regex accept the empty string at the current position?
(`bol` holds before any character has been consumed, see `deriv`.) -/
def Regex.nullable : Regex → Bool
  | .fail => false
  | .eps => true
  | .char _ => false
  | .dot => false
  | .bol => true
  | .seq a b => a.nullable && b.nullable
  | .alt a b => a.nullable || b.nullable
  | .star _ => true

/-- Brzozowski derivative: the residual regex after consuming `x`.
`bol` derives to `fail`, so it can only be satisfied at the start. -/
def Regex.deriv : Regex → Char → Regex
  | .fail, _ => .fail
  | .eps, _ => .fail
  | .char c, x => if x = c then .eps else .fail
  | .dot, x => if x = '\n' then .fail else .eps
  | .bol, _ => .fail
  | .seq a b, x =>
    if a.nullable then .alt (.seq (a.deriv x) b) (b.deriv x)
    else .seq (a.deriv x) b
  | .alt a b, x => .alt (a.deriv x) (b.deriv x)
  | .star r, x => .seq (r.deriv x) (.star r)

/-- `compiled.match(s) is not None`: does the regex match some prefix of
`s`, anchored at the start? -/
def matchesPrefix (r : Regex) : List Char → Bool
  | [] => r.nullable
  | c :: cs => r.nullable || matchesPrefix (r.deriv c) cs

/-- `compiled.match(s) is not None` on a `String`. -/
def reMatch (r : Regex) (s : String) : Bool := matchesPrefix r s.data

/-- Outcome of `re.compile`: `invalid` models `re.error`
(`PatternError`), `unsupported` marks syntax outside the modelled
fragment. -/
inductive ParseErr where
  | invalid
  | unsupported
deriving DecidableEq, Repr

/-- Apply a postfix operator character to the atom before it. Python
rejects a second `*`/`+` (multiple repeat); lazy quantifiers (a
following `?`) are outside the model. -/
def applyPostfix (r : Regex) (c : Char) : Regex :=
  match c with
  | '*' => .star r
  | '+' => .seq r (.star r)
  | _ => .alt r .eps

mutual

/-- Parse an alternation `concat ('|' concat)*`. The fuel only bounds
recursion depth; it is never exhausted for `fuel > 2 * length + 2`. -/
def parseAlt (fuel : Nat) (cs : List Char) :
    Except ParseErr (Regex × List Char) :=
  match fuel with
  | 0 => .error .unsupported
  | fuel + 1 => do
    let (r, rest) ← parseConcat fuel cs
    match rest with
    | '|' :: rest' => do
      let (r2, rest2) ← parseAlt fuel rest'
      .ok (.alt r r2, rest2)
    | _ => .ok (r, rest)

/-- Parse a (possibly empty) concatenation of postfixed atoms, stopping
at `|`, `)` or the end of the pattern. -/
def parseConcat (fuel : Nat) (cs : List Char) :
    Except ParseErr (Regex × List Char) :=
  match fuel with
  | 0 => .error .unsupported
  | fuel + 1 =>
    match cs with
    | [] => .ok (.eps, [])
    | c :: _ =>
      if c = '|' ∨ c = ')' then .ok (.eps, cs)
      else do
        let (r, rest) ← parseAtom fuel cs
        match rest with
        | p :: rest' =>
          if p = '*' ∨ p = '+' ∨ p = '?' then
            match rest' with
            | q :: _ =>
              if q = '*' ∨ q = '+' then .error .invalid
              else if q = '?' then .error .unsupported
              else do
                let (r2, rest2) ← parseConcat fuel rest'
                .ok (.seq (applyPostfix r p) r2, rest2)
            | [] => .ok (applyPostfix r p, [])
          else do
            let (r2, rest2) ← parseConcat fuel rest
            .ok (.seq r r2, rest2)
        | [] => .ok (r, [])

/-- Parse one atom: a group, `.`, `^` or a literal character. A postfix
operator with nothing to repeat and an unmatched `(` are `re.error`s. -/
def parseAtom (fuel : Nat) (cs : List Char) :
    Except ParseErr (Regex × List Char) :=
  match fuel with
  | 0 => .error .unsupported
  | fuel + 1 =>
    match cs with
    | [] => .error .invalid
    | '(' :: rest => do
      let (r, rest') ← parseAlt fuel rest
      match rest' with
      | ')' :: rest2 => .ok (r, rest2)
      | _ => .error .invalid
    | '*' :: _ | '+' :: _ | '?' :: _ => .error .invalid
    | '.' :: rest => .ok (.dot, rest)
    | '^' :: rest => .ok (.bol, rest)
    | '$' :: _ | '[' :: _ | ']' :: _ | '\\' :: _ | '{' :: _ | '}' :: _ =>
      .error .unsupported
    | c :: rest => .ok (.char c, rest)

end

/-- `re.compile`: parse the whole pattern; leftover input means an
unmatched `)`. -/
def pyCompile (p : String) : Except ParseErr Regex :=
  match parseAlt (2 * p.length + 4) p.data with
  | .ok (r, []) => .ok r
  | .ok (_, _ :: _) => .error .invalid
  | .error e => .error e

/-! ## `screens/job.py` -/

/-- A point-in-time query result: entity ID to record, insertion
ordered (one Python dict). -/
abbrev Snapshot := List (String × Value)

/-- The fixed job-state code table (`job_states` in `screens/job.py`). -/
def job_states : List (String × String) :=
  [("R", "running"), ("Q", "queued"), ("H", "on hold"), ("B", "begun"),
   ("E", "exiting"), ("F", "finished"), ("M", "moved"), ("S", "suspended"),
   ("T", "transiting"), ("W", "waiting"), ("U", "user suspended"),
   ("X", "expired")]

/-- `job_states.get(job_state, job_state)`: translate a state code,
passing unknown codes (and non-string values) through; unhashable values
raise `TypeError` when used as a dict key. -/
def translateState (v : Value) : Except PyErr Value :=
  match v with
  | .str s => .ok (.str (agetD job_states s s))
  | .list _ => .error .typeError
  | .dict _ => .error .typeError
  | other => .ok other

/-- Build `{k.lower(): v for k, v in kvs}`: a dict comprehension
lower-casing the keys (later duplicates win, Python dict semantics). -/
def lowerKeysDict (kvs : List (String × Value)) : List (String × Value) :=
  kvs.foldl (fun acc kv => setKey acc (pyLower kv.1) kv.2) []

/-- `extract_row` (`screens/job.py`): project one job record to the
job-list row. Re-raises, in source order: `KeyError "attributes"` (or
`TypeError`), `AttributeError` on a non-dict `attributes`, `KeyError`
for each of `job_state`, `queue`, `job_name`, `job_owner` when absent,
and `AttributeError` when `resources_used` is present but not a dict;
a missing `resources_used` or `walltime` becomes `"(not running)"`. -/
def extract_row_job (id : String) (data : Value) : Except PyErr (List Value) := do
  let attrsV ← getItem data "attributes"
  let kvs ← asDict attrsV
  let attrs := lowerKeysDict kvs
  let job_state ←
    match alookup attrs "job_state" with
    | some v => Except.ok v
    | none => Except.error (.keyError "job_state")
  let queue ←
    match alookup attrs "queue" with
    | some v => Except.ok v
    | none => Except.error (.keyError "queue")
  let st ← translateState job_state
  let name ←
    match alookup attrs "job_name" with
    | some v => Except.ok v
    | none => Except.error (.keyError "job_name")
  let owner ←
    match alookup attrs "job_owner" with
    | some v => Except.ok v
    | none => Except.error (.keyError "job_owner")
  let ru ← asDict (agetD attrs "resources_used" (.dict []))
  let wall := agetD ru "walltime" (.str "(not running)")
  .ok [.str id, queue, st, name, owner, wall]

/-- The sort key of a display row: `natural_sort_key(x[0])`. `x[0]` on
an empty row is an `IndexError`; `re.split` on a non-string raises
`TypeError`. -/
def rowSortKey (row : List Value) : Except PyErr (List SortToken) :=
  match row with
  | [] => .error .indexError
  | .str id :: _ => natural_sort_key id
  | _ :: _ => .error .typeError

/-- Comparator used to model Python's stable `sorted`: place `a` before
`b` unless `b`'s key is strictly below `a`'s. -/
def rowKeyLe (a b : List SortToken × List Value) : Bool :=
  !(keyLtb b.1 a.1)

/-- Insert `x` into a sorted list, after every element `y` with
`le y x` — so elements comparing equal keep their original relative
order. -/
def insertSorted {α : Type} (le : α → α → Bool) (x : α) : List α → List α
  | [] => [x]
  | y :: ys => if le y x then y :: insertSorted le x ys else x :: y :: ys

/-- Stable insertion sort (left fold of `insertSorted`). Python's
`sorted` is a stable sort; a stable sort w.r.t. a total transitive
comparator has a unique output, so this models `sorted` exactly. -/
def stableSort {α : Type} (le : α → α → Bool) (l : List α) : List α :=
  l.foldl (fun acc x => insertSorted le x acc) []

/-- `sorted(rows, key=lambda x: natural_sort_key(x[0]))`: compute each
key (any exception propagates), then stable-sort by the keys. Python's
`sorted` is a stable sort comparing keys with `<`, which a stable merge
sort with the complemented comparator reproduces exactly. -/
def sortRowsByIdKey (rows : List (List Value)) : Except PyErr (List (List Value)) := do
  let keyed ← rows.mapM (fun r => (rowSortKey r).map (fun k => (k, r)))
  .ok ((stableSort rowKeyLe keyed).map (·.2))

/-- Common shape of `update_job_table` / `update_queue_table`: extract a
row per snapshot entry (in iteration order), sort by the natural sort
key of the ID column. The returned list is the rendered table content
(`table.clear` followed by `table.add_rows`). -/
def renderTable (extract : String → Value → Except PyErr (List Value))
    (data : Snapshot) : Except PyErr (List (List Value)) := do
  let rows ← data.mapM (fun p => extract p.1 p.2)
  sortRowsByIdKey rows

/-- `update_job_table` (`screens/job.py`). -/
def update_job_table (data : Snapshot) : Except PyErr (List (List Value)) :=
  renderTable extract_row_job data

/-- `match(v) is not None` over the values of one row, in order, with
Python's short-circuit `any`: a non-string value reaches `re.match` only
if no earlier value matched, and raises `TypeError` there. -/
def anyMatch (r : Regex) : List Value → Except PyErr Bool
  | [] => .ok false
  | .str s :: rest =>
    if reMatch r s then .ok true else anyMatch r rest
  | _ :: _ => .error .typeError

/-- The filtering dict comprehension shared by both `on_input_changed`
handlers: keep the entries whose extracted row has a value the compiled
pattern matches. -/
def filterMatches (extract : String → Value → Except PyErr (List Value))
    (r : Regex) : Snapshot → Except PyErr Snapshot
  | [] => .ok []
  | (id, v) :: rest => do
    let row ← extract id v
    let b ← anyMatch r row
    let tail ← filterMatches extract r rest
    .ok (if b then (id, v) :: tail else tail)

/-- Table content together with the exception (if any) that escaped the
handler. When `raised` is set, `rows` still holds the previously
rendered rows: every exception in the handlers occurs before
`table.clear`/`table.add_rows` mutate the display. -/
structure HandlerResult where
  rows : List (List Value)
  raised : Option PyErr
deriving DecidableEq

/-- Common shape of `JobScreen.on_input_changed` /
`QueueScreen.on_input_changed`: compile the search-bar value
(`re.error` propagates out of the handler), filter the current
snapshot, re-render the table. `st` is the previously rendered table
content. -/
def onInputChanged (extract : String → Value → Except PyErr (List Value))
    (pattern : String) (data : Snapshot) (st : List (List Value)) :
    HandlerResult :=
  match pyCompile pattern with
  | .error .invalid => ⟨st, some .patternError⟩
  | .error .unsupported => ⟨st, some .unsupportedModel⟩
  | .ok r =>
    match (do
        let nd ← filterMatches extract r data
        renderTable extract nd : Except PyErr (List (List Value))) with
    | .error e => ⟨st, some e⟩
    | .ok rows => ⟨rows, none⟩

/-- `JobScreen.on_input_changed` (`screens/job.py`). -/
def on_input_changed_job (pattern : String) (data : Snapshot)
    (st : List (List Value)) : HandlerResult :=
  onInputChanged extract_row_job pattern data st

/-- `update_job_details` (`screens/job.py`): fixed key list, `(missing)`
placeholder. -/
def job_detail_keys : List String :=
  ["job_name", "job_owner", "project", "session_id", "queue", "server",
   "submit_arguments", "error_path", "output_path"]

/-- `update_job_details` rows: `(k, data.get(k, "(missing)"))`. -/
def update_job_details (data : List (String × Value)) : List (String × Value) :=
  job_detail_keys.map (fun k => (k, agetD data k (.str "(missing)")))

/-- `update_properties` (`screens/job.py`): fixed key list, `(missing)`
placeholder. -/
def job_property_keys : List String :=
  ["priority", "rerunnable", "run_count", "checkpoint", "substate", "pset",
   "hold_types", "join_path", "keep_files", "mail_points"]

/-- `update_properties` rows. -/
def update_properties (data : List (String × Value)) : List (String × Value) :=
  job_property_keys.map (fun k => (k, agetD data k (.str "(missing)")))

/-! ### The resource tables -/

/-- The fixed resource list shared by `update_resources` (job details)
and `update_resource_table` (queue details). -/
def expected_resource_keys : List String :=
  ["mem", "ncpus", "nodect", "walltime", "mpiprocs", "place", "select"]

/-- The display-label translation table of `preprocess_resource_table`
(identical in `screens/job.py` and `screens/queue.py`); iteration order
of this dict fixes the row order of both resource tables. -/
def resource_translations : List (String × String) :=
  [("memory", "mem"), ("# MPI processes", "mpiprocs"), ("# cpus", "ncpus"),
   ("# nodes", "nodect"), ("select", "select"), ("walltime", "walltime"),
   ("place", "place")]

/-- `preprocess_group_key`: `key.removeprefix("resources").lstrip("_")`
(note `"resource_list"` does not start with `"resources"` and passes
through unchanged). -/
def preprocess_group_key (k : String) : String :=
  ⟨pyLstripUnderscore (pyRemovePre k.data "resources".data)⟩

/-- The group sub-tables of one record: for every expected resource key,
the per-group value or the placeholder. `data.get(group, {})` must be a
dict or `.get` raises `AttributeError`. -/
def resourceGroups (group_names : List String) (placeholder : String)
    (data : List (String × Value)) :
    Except PyErr (List (String × Value)) :=
  expected_resource_keys.mapM (fun key => do
    let groups ← group_names.mapM (fun g => do
      let gd ← asDict (agetD data g (.dict []))
      Except.ok (preprocess_group_key g, agetD gd key (.str placeholder)))
    Except.ok (key, Value.dict groups))

/-- `preprocess_resource_table`: re-key the per-resource table by display
label, in the translation dict's order. -/
def preprocess_resource_table (data : List (String × Value)) :
    List (String × Value) :=
  resource_translations.map (fun t => (t.1, agetD data t.2 (.str "(unset)")))

/-- Rendered state of a resource `DataTable`. -/
structure TableState where
  rows : List (List Value)
  disabled : Bool
deriving DecidableEq

/-- Short-circuit monadic `any`, modelling Python's `any(...)` over a
generator whose elements may raise. -/
def anyME {α : Type} (f : α → Except PyErr Bool) : List α → Except PyErr Bool
  | [] => .ok false
  | a :: as => do
    let b ← f a
    if b then .ok true else anyME f as

/-- The group list of the queue resource table. -/
def queue_group_names : List String :=
  ["resources_assigned", "resources_min", "resources_max", "resources_default"]

/-- The group list of the job-detail resource table. -/
def job_group_names : List String := ["resource_list", "resources_used"]

/-- `update_resource_table` (`screens/queue.py`): if some group value of
some resource differs from `"(unset)"`, render one row per display
label (label followed by the group values) and enable the table;
otherwise render zero rows and disable it. -/
def update_resource_table (data : List (String × Value)) (_st : TableState) :
    Except PyErr TableState := do
  let resource_limits ← resourceGroups queue_group_names "(unset)" data
  let translated := preprocess_resource_table resource_limits
  let nonEmpty ← anyME (fun t => do
    let g ← asDict t.2
    Except.ok (g.any (fun e => e.2 ≠ Value.str "(unset)"))) translated
  if nonEmpty then do
    let rows ← translated.mapM (fun t => do
      let g ← asDict t.2
      Except.ok (Value.str t.1 :: g.map (·.2)))
    Except.ok ⟨rows, false⟩
  else
    Except.ok ⟨[], true⟩
  -- the previous table state is unused: the queue table always
  -- overwrites both the rows and the disabled flag.

/-- `update_resources` (`screens/job.py`): same projection over
`resource_list`/`resources_used` with the `"(none)"` placeholder, but
rows are always rendered and `table.disabled` is never assigned. -/
def update_resources (data : List (String × Value)) (st : TableState) :
    Except PyErr TableState := do
  let resources ← resourceGroups job_group_names "(none)" data
  let translated := preprocess_resource_table resources
  let rows ← translated.mapM (fun t => do
    let g ← asDict t.2
    Except.ok (Value.str t.1 :: g.map (·.2)))
  Except.ok ⟨rows, st.disabled⟩

/-- The synonym table of the `JobDetailScreen.data` setter. -/
def normKey (k : String) : String :=
  if pyLower k = "rerunable" then "rerunnable" else pyLower k

/-- The `JobDetailScreen.data` setter (`screens/job.py`): copy the
record, rebuild `attributes` with lower-cased, synonym-resolved keys
(`data.get("attributes", {})` must be a dict or `.items()` raises). -/
def set_data (r : List (String × Value)) :
    Except PyErr (List (String × Value)) := do
  let kvs ← asDict (agetD r "attributes" (.dict []))
  let newAttrs := kvs.foldl (fun acc kv => setKey acc (normKey kv.1) kv.2) []
  .ok (setKey r "attributes" (.dict newAttrs))

/-- The record normalization of the spec: key canonicalization (the
`JobDetailScreen.data` setter) combined with the `translate_json` value
coercion applied to the resulting record. -/
def normalizeRecord (r : List (String × Value)) :
    Except PyErr (List (String × Value)) :=
  (set_data r).map translateVDict

/-! ## `screens/queue.py` -/

/-- `extract_row` (`screens/queue.py`): queue-list row. Raises
`KeyError` for a missing `attributes`, `description`, `queue_type` or
`total_jobs`; a falsy description becomes `"(missing)"`. -/
def extract_row_queue (id : String) (data : Value) : Except PyErr (List Value) := do
  let attrs ← getItem data "attributes"
  let descRaw ← getItem data "description"
  let desc := if pyTruthy descRaw then descRaw else .str "(missing)"
  let qt ← getItem attrs "queue_type"
  let tj ← getItem attrs "total_jobs"
  .ok [.str id, qt, tj, desc]

/-- `update_queue_table` (`screens/queue.py`). -/
def update_queue_table (data : Snapshot) : Except PyErr (List (List Value)) :=
  renderTable extract_row_queue data

/-- `QueueScreen.on_input_changed` (`screens/queue.py`); the truthiness
test `any(expression_re.match(v) ...)` (a match object is truthy, `None`
falsy) coincides with the job screen's `is not None` form. -/
def on_input_changed_queue (pattern : String) (data : Snapshot)
    (st : List (List Value)) : HandlerResult :=
  onInputChanged extract_row_queue pattern data st

/-- `update_settings_table` (`screens/queue.py`): fixed key list,
`(unset)` placeholder. -/
def queue_info_keys : List String :=
  ["queue_type", "enabled", "started", "priority"]

/-- `update_settings_table` rows. -/
def update_settings_table (data : List (String × Value)) :
    List (String × Value) :=
  queue_info_keys.map (fun k => (k, agetD data k (.str "(unset)")))

/-- One step of the `parse_state_count` dict comprehension: unpack
`name, count` (a `ValueError` unless the part has exactly two pieces,
i.e. exactly one colon), parse the count, assign into the dict. -/
def stateCountStep (acc : List (String × Int)) (p : List (List Char)) :
    Except PyErr (List (String × Int)) :=
  match p with
  | [name, count] =>
    (pyInt count).map (fun n => setKey acc (pyLower ⟨name⟩) n)
  | _ => .error .valueError

/-- `parse_state_count` (`screens/queue.py`): split on whitespace, split
each part on `":"`, build `{name.lower(): int(count)}`. Any raise
discards the dict under construction. -/
def parse_state_count (s : String) : Except PyErr (List (String × Int)) :=
  ((pySplitWs (pyStrip s.data)).map pySplitColon).foldlM stateCountStep []


/-! ## Order lemmas for the lexicographic comparisons -/

section LexOrder

variable {α : Type} [DecidableEq α] {lt : α → α → Bool}

theorem lexLtb_trans
    (htr : ∀ a b c, lt a b = true → lt b c = true → lt a c = true)
    (hasym : ∀ a b, lt a b = true → lt b a = true → False) :
    ∀ as bs cs : List α, lexLtb lt as bs = true → lexLtb lt bs cs = true →
      lexLtb lt as cs = true := by
  intro as
  induction as with
  | nil =>
    intro bs cs h1 h2
    cases bs with
    | nil => simp [lexLtb] at h1
    | cons b bs =>
      cases cs with
      | nil => simp [lexLtb] at h2
      | cons c cs => simp [lexLtb]
  | cons a as ih =>
    intro bs cs h1 h2
    cases bs with
    | nil => simp [lexLtb] at h1
    | cons b bs =>
      cases cs with
      | nil => simp [lexLtb] at h2
      | cons c cs =>
        simp only [lexLtb] at h1 h2 ⊢
        by_cases hab : a = b
        · subst hab
          simp only [if_pos rfl] at h1
          by_cases hac : a = c
          · subst hac
            simp only [if_pos rfl] at h2 ⊢
            exact ih bs cs h1 h2
          · simp only [if_neg hac] at h2 ⊢
            exact h2
        · simp only [if_neg hab] at h1
          by_cases hbc : b = c
          · subst hbc
            simp only [if_neg hab]
            exact h1
          · simp only [if_neg hbc] at h2
            by_cases hac : a = c
            · subst hac
              exact (hasym a b h1 h2).elim
            · simp only [if_neg hac]
              exact htr a b c h1 h2

theorem lexLtb_asym
    (hasym : ∀ a b, lt a b = true → lt b a = true → False) :
    ∀ as bs : List α, lexLtb lt as bs = true → lexLtb lt bs as = true → False := by
  intro as
  induction as with
  | nil =>
    intro bs h1 h2
    cases bs with
    | nil => simp [lexLtb] at h1
    | cons b bs => simp [lexLtb] at h2
  | cons a as ih =>
    intro bs h1 h2
    cases bs with
    | nil => simp [lexLtb] at h1
    | cons b bs =>
      simp only [lexLtb] at h1 h2
      by_cases hab : a = b
      · subst hab
        simp only [if_pos rfl] at h1 h2
        exact ih bs h1 h2
      · simp only [if_neg hab, if_neg (Ne.symm hab)] at h1 h2
        exact hasym a b h1 h2

theorem lexLtb_total_ne
    (htot : ∀ a b : α, a ≠ b → lt a b = true ∨ lt b a = true) :
    ∀ as bs : List α, as ≠ bs →
      lexLtb lt as bs = true ∨ lexLtb lt bs as = true := by
  intro as
  induction as with
  | nil =>
    intro bs hne
    cases bs with
    | nil => exact absurd rfl hne
    | cons b bs => left; simp [lexLtb]
  | cons a as ih =>
    intro bs hne
    cases bs with
    | nil => right; simp [lexLtb]
    | cons b bs =>
      by_cases hab : a = b
      · subst hab
        have hne' : as ≠ bs := fun h => hne (by rw [h])
        rcases ih bs hne' with h | h
        · left; simp only [lexLtb, if_pos rfl]; exact h
        · right; simp only [lexLtb, if_pos rfl]; exact h
      · rcases htot a b hab with h | h
        · left
          simp only [lexLtb, if_neg hab]
          exact h
        · right
          simp only [lexLtb, if_neg (Ne.symm hab)]
          exact h

end LexOrder

/-- Transitivity of the character comparison underlying `strLtb`. -/
theorem charLtb_trans (a b c : Char) (h1 : decide (a < b) = true)
    (h2 : decide (b < c) = true) : decide (a < c) = true :=
  decide_eq_true (lt_trans (of_decide_eq_true h1) (of_decide_eq_true h2))

/-- Asymmetry of the character comparison. -/
theorem charLtb_asym (a b : Char) (h1 : decide (a < b) = true)
    (h2 : decide (b < a) = true) : False :=
  lt_asymm (of_decide_eq_true h1) (of_decide_eq_true h2)

/-- Totality of the character comparison on distinct characters. -/
theorem charLtb_total_ne (a b : Char) (h : a ≠ b) :
    decide (a < b) = true ∨ decide (b < a) = true := by
  rcases lt_or_gt_of_ne h with h' | h'
  · exact Or.inl (decide_eq_true h')
  · exact Or.inr (decide_eq_true h')

theorem strLtb_trans {a b c : String} (h1 : strLtb a b = true)
    (h2 : strLtb b c = true) : strLtb a c = true :=
  lexLtb_trans charLtb_trans charLtb_asym a.data b.data c.data h1 h2

theorem strLtb_asym {a b : String} (h1 : strLtb a b = true)
    (h2 : strLtb b a = true) : False :=
  lexLtb_asym charLtb_asym a.data b.data h1 h2

theorem strLtb_total_ne {a b : String} (h : a ≠ b) :
    strLtb a b = true ∨ strLtb b a = true := by
  refine lexLtb_total_ne charLtb_total_ne a.data b.data (fun hd => h ?_)
  cases a; cases b; exact congrArg String.mk hd

theorem tokLtb_trans : ∀ a b c : SortToken, SortToken.ltb a b = true →
    SortToken.ltb b c = true → SortToken.ltb a c = true
  | .n _, .n _, .n _, h1, h2 => by
    simp only [SortToken.ltb] at h1 h2 ⊢
    exact decide_eq_true (lt_trans (of_decide_eq_true h1) (of_decide_eq_true h2))
  | .n _, .n _, .s _, _, _ => rfl
  | .n _, .s _, .s _, _, _ => rfl
  | .n _, .s _, .n _, _, h2 => by simp [SortToken.ltb] at h2
  | .s _, .n _, _, h1, _ => by simp [SortToken.ltb] at h1
  | .s _, .s _, .n _, _, h2 => by simp [SortToken.ltb] at h2
  | .s _, .s _, .s _, h1, h2 => strLtb_trans h1 h2

theorem tokLtb_asym : ∀ a b : SortToken, SortToken.ltb a b = true →
    SortToken.ltb b a = true → False
  | .n _, .n _, h1, h2 => by
    simp only [SortToken.ltb] at h1 h2
    exact lt_asymm (of_decide_eq_true h1) (of_decide_eq_true h2)
  | .n _, .s _, _, h2 => by simp [SortToken.ltb] at h2
  | .s _, .n _, h1, _ => by simp [SortToken.ltb] at h1
  | .s _, .s _, h1, h2 => strLtb_asym h1 h2

theorem tokLtb_total_ne : ∀ a b : SortToken, a ≠ b →
    SortToken.ltb a b = true ∨ SortToken.ltb b a = true
  | .n _, .s _, _ => Or.inl rfl
  | .s _, .n _, _ => Or.inr rfl
  | .n a, .n b, h => by
    have hab : a ≠ b := fun hh => h (by rw [hh])
    rcases lt_or_gt_of_ne hab with h' | h'
    · exact Or.inl (by simpa [SortToken.ltb] using h')
    · exact Or.inr (by simpa [SortToken.ltb] using h')
  | .s a, .s b, h =>
    strLtb_total_ne (fun hh => h (by rw [hh]))

theorem keyLtb_trans {a b c : List SortToken} (h1 : keyLtb a b = true)
    (h2 : keyLtb b c = true) : keyLtb a c = true :=
  lexLtb_trans tokLtb_trans tokLtb_asym a b c h1 h2

theorem keyLtb_asym {a b : List SortToken} (h1 : keyLtb a b = true)
    (h2 : keyLtb b a = true) : False :=
  lexLtb_asym tokLtb_asym a b h1 h2

theorem keyLtb_total_ne {a b : List SortToken} (h : a ≠ b) :
    keyLtb a b = true ∨ keyLtb b a = true :=
  lexLtb_total_ne tokLtb_total_ne a b h

/-- The comparator handed to the stable sort is transitive. -/
theorem rowKeyLe_trans (a b c : List SortToken × List Value)
    (h1 : rowKeyLe a b = true) (h2 : rowKeyLe b c = true) :
    rowKeyLe a c = true := by
  simp only [rowKeyLe, Bool.not_eq_true'] at h1 h2 ⊢
  by_contra hca
  have hca' : keyLtb c.1 a.1 = true := by
    cases h : keyLtb c.1 a.1 with
    | false => exact absurd h hca
    | true => rfl
  by_cases hbc : b.1 = c.1
  · rw [← hbc] at hca'
    rw [hca'] at h1
    exact Bool.noConfusion h1
  · rcases keyLtb_total_ne hbc with h | h
    · have := keyLtb_trans h hca'
      rw [this] at h1
      exact Bool.noConfusion h1
    · rw [h] at h2
      exact Bool.noConfusion h2

/-- The comparator handed to the stable sort is total. -/
theorem rowKeyLe_total (a b : List SortToken × List Value) :
    (rowKeyLe a b || rowKeyLe b a) = true := by
  simp only [rowKeyLe, Bool.not_eq_true', Bool.or_eq_true]
  by_cases hab : keyLtb b.1 a.1 = true
  · right
    cases h : keyLtb a.1 b.1 with
    | false => rfl
    | true => exact (keyLtb_asym h hab).elim
  · left
    cases h : keyLtb b.1 a.1 with
    | false => rfl
    | true => exact absurd h hab


/-! ## Helper lemmas about `mapM` over `Except` -/

section ExceptMapM

variable {α β : Type}

/-- Totalization of a fallible function (junk value on error), used to
state that a successful `mapM` is a plain `map`. -/
def exVal [Inhabited β] (f : α → Except PyErr β) (a : α) : β :=
  match f a with
  | .ok b => b
  | .error _ => default

theorem exVal_eq [Inhabited β] {f : α → Except PyErr β} {a : α} {b : β}
    (h : f a = .ok b) : exVal f a = b := by
  simp [exVal, h]

theorem mapM_ok_eq_map [Inhabited β] {f : α → Except PyErr β} :
    ∀ {l : List α} {l' : List β}, l.mapM f = .ok l' → l' = l.map (exVal f) := by
  intro l
  induction l with
  | nil =>
    intro l' h
    simp only [List.mapM_nil] at h
    cases h
    simp
  | cons a as ih =>
    intro l' h
    rw [List.mapM_cons] at h
    cases hfa : f a with
    | error e => rw [hfa] at h; simp [Bind.bind, Except.bind] at h
    | ok b =>
      rw [hfa] at h
      cases hrest : as.mapM f with
      | error e =>
        rw [hrest] at h
        simp [Bind.bind, Except.bind, Pure.pure, Except.pure] at h
      | ok bs =>
        rw [hrest] at h
        simp only [Bind.bind, Except.bind, Pure.pure, Except.pure,
          Except.ok.injEq] at h
        rw [← h, List.map_cons, exVal_eq hfa, ih hrest]

theorem mapM_ok_forall {f : α → Except PyErr β} :
    ∀ {l : List α} {l' : List β}, l.mapM f = .ok l' →
      ∀ a ∈ l, ∃ b, f a = .ok b := by
  intro l
  induction l with
  | nil => intro l' _ a ha; cases ha
  | cons x xs ih =>
    intro l' h a ha
    rw [List.mapM_cons] at h
    cases hfa : f x with
    | error e => rw [hfa] at h; simp [Bind.bind, Except.bind] at h
    | ok b =>
      rw [hfa] at h
      cases hrest : xs.mapM f with
      | error e =>
        rw [hrest] at h
        simp [Bind.bind, Except.bind, Pure.pure, Except.pure] at h
      | ok bs =>
        rcases ha with _ | ha
        · exact ⟨b, hfa⟩
        · exact ih hrest a (by assumption)

theorem mapM_ok_of_forall {f : α → Except PyErr β} :
    ∀ {l : List α}, (∀ a ∈ l, ∃ b, f a = .ok b) →
      ∃ l', l.mapM f = .ok l' := by
  intro l
  induction l with
  | nil => intro _; exact ⟨[], rfl⟩
  | cons x xs ih =>
    intro h
    obtain ⟨b, hb⟩ := h x (List.mem_cons_self x xs)
    obtain ⟨bs, hbs⟩ := ih (fun a ha => h a (List.mem_cons_of_mem x ha))
    refine ⟨b :: bs, ?_⟩
    rw [List.mapM_cons, hb, hbs]
    rfl

theorem mapM_ok_map {f : α → Except PyErr β} {g : α → β} :
    ∀ {l : List α}, (∀ a ∈ l, f a = .ok (g a)) → l.mapM f = .ok (l.map g) := by
  intro l
  induction l with
  | nil => intro _; rfl
  | cons x xs ih =>
    intro h
    rw [List.mapM_cons, h x (List.mem_cons_self x xs),
      ih (fun a ha => h a (List.mem_cons_of_mem x ha))]
    rfl

theorem mapM_ok_mem [Inhabited β] {f : α → Except PyErr β}
    {l : List α} {l' : List β} (h : l.mapM f = .ok l') :
    ∀ b ∈ l', ∃ a ∈ l, f a = .ok b := by
  intro b hb
  rw [mapM_ok_eq_map h] at hb
  obtain ⟨a, ha, hv⟩ := List.mem_map.mp hb
  obtain ⟨b', hb'⟩ := mapM_ok_forall h a ha
  exact ⟨a, ha, by rw [hb', ← hv, exVal_eq hb']⟩

end ExceptMapM

instance : Inhabited Value := ⟨.null⟩

/-! ## Determinism and sortedness of the rendered list views -/

/-- The strict key order on keyed rows, used to show that a stable sort
of rows with pairwise distinct keys is unique. -/
def rowKeyLt (a b : List SortToken × List Value) : Prop :=
  keyLtb a.1 b.1 = true

instance : IsAntisymm (List SortToken × List Value) rowKeyLt :=
  ⟨fun _ _ h1 h2 => (keyLtb_asym h1 h2).elim⟩

section StableSort

variable {α : Type} {le : α → α → Bool}

theorem insertSorted_perm (le : α → α → Bool) (x : α) :
    ∀ l : List α, (insertSorted le x l).Perm (x :: l) := by
  intro l
  induction l with
  | nil => exact List.Perm.refl _
  | cons y ys ih =>
    by_cases h : le y x = true
    · simp only [insertSorted, if_pos h]
      exact (ih.cons y).trans (List.Perm.swap x y ys)
    · simp only [insertSorted, if_neg h]
      exact List.Perm.refl _

theorem stableSort_perm (le : α → α → Bool) (l : List α) :
    (stableSort le l).Perm l := by
  have key : ∀ (l acc : List α),
      (l.foldl (fun acc x => insertSorted le x acc) acc).Perm (acc ++ l) := by
    intro l
    induction l with
    | nil => intro acc; simp
    | cons x xs ih =>
      intro acc
      have h1 := ih (insertSorted le x acc)
      refine (List.foldl_cons _ _ ▸ h1).trans ?_
      have h2 : (insertSorted le x acc ++ xs).Perm ((x :: acc) ++ xs) :=
        (insertSorted_perm le x acc).append_right xs
      refine h2.trans ?_
      exact List.perm_middle.symm
  exact key l []

theorem mem_insertSorted {x a : α} {l : List α} :
    a ∈ insertSorted le x l ↔ a = x ∨ a ∈ l := by
  rw [(insertSorted_perm le x l).mem_iff]
  simp

theorem insertSorted_pairwise
    (htr : ∀ a b c, le a b = true → le b c = true → le a c = true)
    (hto : ∀ a b, (le a b || le b a) = true) (x : α) :
    ∀ {l : List α}, l.Pairwise (le · ·) →
      (insertSorted le x l).Pairwise (le · ·) := by
  intro l
  induction l with
  | nil =>
    intro _
    simp only [insertSorted]
    exact List.pairwise_singleton _ _
  | cons y ys ih =>
    intro h
    rw [List.pairwise_cons] at h
    by_cases hyx : le y x = true
    · simp only [insertSorted, if_pos hyx]
      rw [List.pairwise_cons]
      constructor
      · intro z hz
        rcases mem_insertSorted.mp hz with rfl | hz
        · exact hyx
        · exact h.1 z hz
      · exact ih h.2
    · simp only [insertSorted, if_neg hyx]
      have hxy : le x y = true := by
        have := hto y x
        rw [Bool.or_eq_true] at this
        rcases this with h' | h'
        · exact absurd h' hyx
        · exact h'
      rw [List.pairwise_cons]
      constructor
      · intro z hz
        rcases hz with _ | hz
        · exact hxy
        · exact htr x y z hxy (h.1 z (by assumption))
      · rw [List.pairwise_cons]
        exact h
  -- stability: `x` goes after every `y` with `le y x`, so elements with
  -- equal keys keep their insertion order, as Python's sort does.

theorem stableSort_sorted
    (htr : ∀ a b c, le a b = true → le b c = true → le a c = true)
    (hto : ∀ a b, (le a b || le b a) = true) (l : List α) :
    (stableSort le l).Pairwise (le · ·) := by
  have key : ∀ (l acc : List α), acc.Pairwise (le · ·) →
      (l.foldl (fun acc x => insertSorted le x acc) acc).Pairwise (le · ·) := by
    intro l
    induction l with
    | nil => intro acc h; exact h
    | cons x xs ih =>
      intro acc h
      rw [List.foldl_cons]
      exact ih _ (insertSorted_pairwise htr hto x h)
  exact key l [] (by simp)

end StableSort

theorem pairwise_rowKeyLt_of_sorted {l : List (List SortToken × List Value)}
    (hs : l.Pairwise (rowKeyLe · ·))
    (hne : l.Pairwise (fun a b => a.1 ≠ b.1)) :
    l.Pairwise rowKeyLt := by
  refine (hs.and hne).imp ?_
  rintro a b ⟨hle, hab⟩
  simp only [rowKeyLe, Bool.not_eq_true'] at hle
  rcases keyLtb_total_ne hab with h | h
  · exact h
  · rw [h] at hle
    exact Bool.noConfusion hle

/-- Two stable sorts of permuted keyed rows with pairwise distinct keys
agree. -/
theorem stableSort_eq_of_perm {l₁ l₂ : List (List SortToken × List Value)}
    (hp : l₁.Perm l₂) (hne : l₁.Pairwise (fun a b => a.1 ≠ b.1)) :
    stableSort rowKeyLe l₁ = stableSort rowKeyLe l₂ := by
  have hp₁ : (stableSort rowKeyLe l₁).Perm (stableSort rowKeyLe l₂) :=
    ((stableSort_perm rowKeyLe l₁).trans hp).trans
      (stableSort_perm rowKeyLe l₂).symm
  have hs₁ : (stableSort rowKeyLe l₁).Pairwise (rowKeyLe · ·) :=
    stableSort_sorted
      (fun a b c => rowKeyLe_trans a b c) (fun a b => rowKeyLe_total a b) l₁
  have hs₂ : (stableSort rowKeyLe l₂).Pairwise (rowKeyLe · ·) :=
    stableSort_sorted
      (fun a b c => rowKeyLe_trans a b c) (fun a b => rowKeyLe_total a b) l₂
  have hne₁ : (stableSort rowKeyLe l₁).Pairwise (fun a b => a.1 ≠ b.1) :=
    ((stableSort_perm rowKeyLe l₁).pairwise_iff (fun h => Ne.symm h)).mpr hne
  have hne₂ : (stableSort rowKeyLe l₂).Pairwise (fun a b => a.1 ≠ b.1) :=
    (hp₁.pairwise_iff (fun h => Ne.symm h)).mp hne₁
  exact List.eq_of_perm_of_sorted hp₁
    (pairwise_rowKeyLt_of_sorted hs₁ hne₁)
    (pairwise_rowKeyLt_of_sorted hs₂ hne₂)


/-- Success of a bind in `Except` factors through the intermediate
value. -/
theorem except_bind_ok {γ δ : Type} {x : Except PyErr γ}
    {f : γ → Except PyErr δ} {d : δ} :
    (x >>= f) = .ok d ↔ ∃ c, x = .ok c ∧ f c = .ok d := by
  cases x with
  | error e =>
    constructor
    · intro h
      simp [Bind.bind, Except.bind] at h
    · rintro ⟨c, hc, -⟩
      cases hc
  | ok c =>
    constructor
    · intro h
      exact ⟨c, rfl, h⟩
    · rintro ⟨c', hc, hf⟩
      cases hc
      exact hf

/-- The keying step of `sortRowsByIdKey` for one row. -/
def keyRow (r : List Value) : Except PyErr (List SortToken × List Value) :=
  (rowSortKey r).map (fun k => (k, r))

theorem keyRow_ok {r : List Value} {p : List SortToken × List Value}
    (h : keyRow r = .ok p) : rowSortKey r = .ok p.1 ∧ p.2 = r := by
  unfold keyRow at h
  cases hk : rowSortKey r with
  | error e => rw [hk] at h; simp [Except.map] at h
  | ok k =>
    rw [hk] at h
    simp only [Except.map, Except.ok.injEq] at h
    rw [← h]
    exact ⟨rfl, rfl⟩

/-- Destructures a successful `renderTable`: the extracted rows, keyed
rows, and the shape of the output. -/
theorem renderTable_ok_elim {extract : String → Value → Except PyErr (List Value)}
    {data : Snapshot} {rows : List (List Value)}
    (h : renderTable extract data = .ok rows) :
    ∃ rows₀ keyed,
      data.mapM (fun p => extract p.1 p.2) = .ok rows₀ ∧
      rows₀.mapM keyRow = .ok keyed ∧
      rows = (stableSort rowKeyLe keyed).map (·.2) := by
  have h' : ((data.mapM fun p => extract p.1 p.2) >>=
      fun rows₀ => sortRowsByIdKey rows₀) = .ok rows := h
  obtain ⟨rows₀, h₀, h₁⟩ := except_bind_ok.mp h'
  have h₁' : ((rows₀.mapM keyRow) >>=
      fun keyed => Except.ok ((stableSort rowKeyLe keyed).map (·.2))) = .ok rows := h₁
  obtain ⟨keyed, h₂, h₃⟩ := except_bind_ok.mp h₁'
  exact ⟨rows₀, keyed, h₀, h₂, (Except.ok.injEq _ _ ▸ h₃).symm⟩

/-- If every snapshot entry extracts to a row whose sort key computes,
the rendered table exists. -/
theorem renderTable_ok_of {extract : String → Value → Except PyErr (List Value)}
    {data : Snapshot}
    (hall : ∀ p ∈ data, ∃ row, extract p.1 p.2 = .ok row ∧
      ∃ k, rowSortKey row = .ok k) :
    ∃ rows, renderTable extract data = .ok rows := by
  obtain ⟨rows₀, h₀⟩ :=
    mapM_ok_of_forall (f := fun p : String × Value => extract p.1 p.2)
      (fun p hp => ⟨(hall p hp).choose, (hall p hp).choose_spec.1⟩)
  have hkeys : ∀ r ∈ rows₀, ∃ b, keyRow r = .ok b := by
    intro r hr
    obtain ⟨p, hp, hfp⟩ := mapM_ok_mem h₀ r hr
    obtain ⟨row, hrow, k, hk⟩ := hall p hp
    rw [hfp] at hrow
    cases hrow
    exact ⟨(k, r), by simp [keyRow, hk, Except.map]⟩
  obtain ⟨keyed, h₁⟩ := mapM_ok_of_forall (f := keyRow) hkeys
  refine ⟨(stableSort rowKeyLe keyed).map (·.2), ?_⟩
  show ((data.mapM fun p => extract p.1 p.2) >>=
    fun rows₀ => sortRowsByIdKey rows₀) = _
  rw [except_bind_ok]
  refine ⟨rows₀, h₀, ?_⟩
  show ((rows₀.mapM keyRow) >>=
    fun keyed => Except.ok ((stableSort rowKeyLe keyed).map (·.2))) = _
  rw [except_bind_ok]
  exact ⟨keyed, h₁, rfl⟩

/-- A rendered list view has one row per snapshot entry. -/
theorem renderTable_length {extract : String → Value → Except PyErr (List Value)}
    {data : Snapshot} {rows : List (List Value)}
    (h : renderTable extract data = .ok rows) :
    rows.length = data.length := by
  obtain ⟨rows₀, keyed, h₀, h₁, hshape⟩ := renderTable_ok_elim h
  have l₀ : rows₀.length = data.length := by
    rw [mapM_ok_eq_map h₀, List.length_map]
  have l₁ : keyed.length = rows₀.length := by
    rw [mapM_ok_eq_map h₁, List.length_map]
  rw [hshape, List.length_map, (stableSort_perm rowKeyLe keyed).length_eq, l₁, l₀]

/-- A rendered list view is a permutation of the per-entity rows, i.e.
every entity contributes exactly its extracted row. -/
theorem renderTable_perm_rows
    {extract : String → Value → Except PyErr (List Value)}
    {data : Snapshot} {rows : List (List Value)} {rows₀ : List (List Value)}
    (h : renderTable extract data = .ok rows)
    (h₀ : data.mapM (fun p => extract p.1 p.2) = .ok rows₀) :
    rows.Perm rows₀ := by
  obtain ⟨rowsx, keyed, h₀x, h₁, hshape⟩ := renderTable_ok_elim h
  rw [h₀] at h₀x
  injection h₀x with he
  subst he
  have hmain : ((stableSort rowKeyLe keyed).map (·.2)).Perm (keyed.map (·.2)) :=
    (stableSort_perm rowKeyLe keyed).map _
  have hsnd : keyed.map (·.2) = rows₀ := by
    rw [mapM_ok_eq_map h₁, List.map_map]
    conv_rhs => rw [← List.map_id rows₀]
    refine List.map_congr_left ?_
    intro r hr
    obtain ⟨b, hb⟩ := mapM_ok_forall h₁ r hr
    have h2 := (keyRow_ok hb).2
    simp [Function.comp, exVal_eq hb, h2]
  rw [hshape]
  rw [hsnd] at hmain
  exact hmain

/-- Every element of the keyed list carries the sort key of its row. -/
theorem keyed_mem_spec {rows₀ : List (List Value)}
    {keyed : List (List SortToken × List Value)}
    (h₁ : rows₀.mapM keyRow = .ok keyed) :
    ∀ p ∈ keyed, rowSortKey p.2 = .ok p.1 := by
  intro p hp
  obtain ⟨r, _, hr⟩ := mapM_ok_mem h₁ p hp
  have := keyRow_ok hr
  rw [this.2]
  exact this.1

/-- Sortedness of a rendered list view: along the rendered order the
natural sort keys of the ID column never decrease. -/
theorem renderTable_sorted
    {extract : String → Value → Except PyErr (List Value)}
    {data : Snapshot} {rows : List (List Value)}
    (h : renderTable extract data = .ok rows) :
    rows.Pairwise (fun r r' => ∀ k k', rowSortKey r = .ok k →
      rowSortKey r' = .ok k' → keyLtb k' k = false) := by
  obtain ⟨rows₀, keyed, h₀, h₁, hshape⟩ := renderTable_ok_elim h
  have hsorted : (stableSort rowKeyLe keyed).Pairwise (rowKeyLe · ·) :=
    stableSort_sorted
      (fun a b c => rowKeyLe_trans a b c) (fun a b => rowKeyLe_total a b) keyed
  have hmem : ∀ p ∈ stableSort rowKeyLe keyed, rowSortKey p.2 = .ok p.1 :=
    fun p hp => keyed_mem_spec h₁ p ((stableSort_perm rowKeyLe keyed).mem_iff.mp hp)
  rw [hshape, List.pairwise_map]
  refine hsorted.imp_of_mem ?_
  intro a b ha hb hle k k' hk hk'
  rw [hmem a ha] at hk
  rw [hmem b hb] at hk'
  cases hk
  cases hk'
  simpa [rowKeyLe, Bool.not_eq_true'] using hle

/-- Determinism of a rendered list view: when the natural sort keys of
the IDs are pairwise distinct, any two iteration orders of the same
snapshot render identically. -/
theorem renderTable_det
    {extract : String → Value → Except PyErr (List Value)}
    (hhead : ∀ id v row, extract id v = .ok row → ∃ rest, row = .str id :: rest)
    {data data' : Snapshot} {rows rows' : List (List Value)}
    (hperm : data.Perm data')
    (h : renderTable extract data = .ok rows)
    (h' : renderTable extract data' = .ok rows')
    (hne : data.Pairwise (fun p q => natural_sort_key p.1 ≠ natural_sort_key q.1)) :
    rows = rows' := by
  obtain ⟨rows₀, keyed, h₀, h₁, hshape⟩ := renderTable_ok_elim h
  obtain ⟨rows₀', keyed', h₀', h₁', hshape'⟩ := renderTable_ok_elim h'
  -- the two keyed lists are permutations of each other
  have e₀ : rows₀ = data.map (exVal (fun p => extract p.1 p.2)) := mapM_ok_eq_map h₀
  have e₀' : rows₀' = data'.map (exVal (fun p => extract p.1 p.2)) := mapM_ok_eq_map h₀'
  have e₁ : keyed = rows₀.map (exVal keyRow) := mapM_ok_eq_map h₁
  have e₁' : keyed' = rows₀'.map (exVal keyRow) := mapM_ok_eq_map h₁'
  have hkperm : keyed.Perm keyed' := by
    rw [e₁, e₁', e₀, e₀']
    exact (hperm.map _).map _
  -- keys of the keyed list are the natural sort keys of the entity IDs
  have hkey : ∀ p ∈ data,
      (exVal keyRow (exVal (fun p => extract p.1 p.2) p)).1 =
        exVal natural_sort_key p.1 := by
    intro p hp
    obtain ⟨row, hrow⟩ := mapM_ok_forall h₀ p hp
    obtain ⟨rest, hrest⟩ := hhead p.1 p.2 row hrow
    have hrmem : row ∈ rows₀ := by
      rw [e₀]
      exact List.mem_map.mpr ⟨p, hp, exVal_eq hrow⟩
    obtain ⟨kp, hkp⟩ := mapM_ok_forall h₁ row hrmem
    have hsk : rowSortKey row = .ok kp.1 ∧ kp.2 = row := keyRow_ok hkp
    have hns : natural_sort_key p.1 = .ok kp.1 := by
      have := hsk.1
      rw [hrest] at this
      exact this
    have e1 : exVal (fun p : String × Value => extract p.1 p.2) p = row :=
      @exVal_eq (String × Value) (List Value) _ (fun p => extract p.1 p.2) p row hrow
    rw [e1, exVal_eq hkp, exVal_eq hns]
  -- distinct ids give distinct keys on the keyed list
  have hkne : keyed.Pairwise (fun a b => a.1 ≠ b.1) := by
    rw [e₁, e₀, List.map_map, List.pairwise_map]
    refine (hne.and (List.pairwise_of_forall_mem_list
      (l := data) (r := fun p q => p ∈ data ∧ q ∈ data) ?_)).imp_of_mem ?_
    · intro p hp q hq
      exact ⟨hp, hq⟩
    · rintro p q hp hq ⟨hpq, hpd, hqd⟩
      intro hc
      apply hpq
      have hkp := hkey p hpd
      have hkq := hkey q hqd
      simp only [Function.comp] at hc
      have : exVal natural_sort_key p.1 = exVal natural_sort_key q.1 := by
        rw [← hkp, ← hkq, hc]
      -- both keys compute, so equal totalizations give equal results
      obtain ⟨row, hrow⟩ := mapM_ok_forall h₀ p hpd
      obtain ⟨rest, hrest⟩ := hhead p.1 p.2 row hrow
      have hrmem : row ∈ rows₀ := by
        rw [e₀]; exact List.mem_map.mpr ⟨p, hpd, exVal_eq hrow⟩
      obtain ⟨kp, hkp'⟩ := mapM_ok_forall h₁ row hrmem
      have hnsp : natural_sort_key p.1 = .ok kp.1 := by
        have := (keyRow_ok hkp').1; rw [hrest] at this; exact this
      obtain ⟨row', hrow'⟩ := mapM_ok_forall h₀ q hqd
      obtain ⟨rest', hrest'⟩ := hhead q.1 q.2 row' hrow'
      have hrmem' : row' ∈ rows₀ := by
        rw [e₀]; exact List.mem_map.mpr ⟨q, hqd, exVal_eq hrow'⟩
      obtain ⟨kq, hkq'⟩ := mapM_ok_forall h₁ row' hrmem'
      have hnsq : natural_sort_key q.1 = .ok kq.1 := by
        have := (keyRow_ok hkq').1; rw [hrest'] at this; exact this
      rw [hnsp, hnsq]
      rw [exVal_eq hnsp, exVal_eq hnsq] at this
      rw [this]
  rw [hshape, hshape', stableSort_eq_of_perm hkperm hkne]

/-! ## The claims -/

/-- C1: the spec says `translate_json` converts the leaf string
`"False"` to the boolean `false`; the code's `bool(obj)` on the matched
string is Python truthiness of a nonempty string, so `"False"` becomes
the boolean `true` (and so does `"False"` nested inside a map or a
sequence). The intent of a match arm dedicated to `"False"` is clearly
the boolean `false`; this is a slip in the code. -/
theorem translate_json_False_becomes_true :
    translate_json (.str "False") = .bool true ∧
    translate_json (.dict [("a", .str "False")]) =
      .dict [("a", .bool true)] ∧
    translate_json (.list [.str "False"]) = .list [.bool true] :=
  ⟨rfl, rfl, rfl⟩

/-- C2 counterexample: the claim says the search-input handler never
raises an uncaught exception; on the invalid pattern `"("` the
`re.compile` call raises `re.error` (`PatternError`) straight out of
`on_input_changed` — the handler has no `try`/`except`. The previously
rendered rows are untouched, because the raise happens before any table
mutation. -/
theorem on_input_changed_raises_on_invalid_pattern :
    (on_input_changed_job "(" [] [[Value.str "prev"]]).raised =
      some PyErr.patternError ∧
    (on_input_changed_queue "(" [] [[Value.str "prev"]]).raised =
      some PyErr.patternError := by
  constructor <;> decide

/-- C2 (amended): on a syntactically invalid pattern both
`on_input_changed` handlers raise `PatternError` out of the handler
(surfacing it to the framework that called them) and leave the
previously rendered rows unchanged — the exception occurs before
`table.clear`/`add_rows`, so the display is never cleared. -/
theorem on_input_changed_invalid_pattern (p : String) (data : Snapshot)
    (st : List (List Value)) (h : pyCompile p = .error .invalid) :
    on_input_changed_job p data st = ⟨st, some .patternError⟩ ∧
    on_input_changed_queue p data st = ⟨st, some .patternError⟩ := by
  unfold on_input_changed_job on_input_changed_queue onInputChanged
  rw [h]
  exact ⟨rfl, rfl⟩

/-- C2 witness: the handlers at the invalid pattern `"("` with a
one-job snapshot and a previously rendered row. -/
theorem on_input_changed_invalid_pattern_witness :
    on_input_changed_job "("
      [("1", .dict [("attributes", .dict [("job_state", .str "R")])])]
      [[Value.str "prev"]] = ⟨[[Value.str "prev"]], some .patternError⟩ :=
  (on_input_changed_invalid_pattern "(" _ _ (by decide)).1

/-- C10: `parse_state_count` on the empty string or a string of only
whitespace returns the empty mapping and raises nothing: zero
`name:count` pairs are not malformed (`"".strip().split()` is `[]` and
the dict comprehension over it is `{}`). -/
theorem parse_state_count_whitespace (s : String)
    (h : ∀ c ∈ s.data, pyIsSpace c = true) :
    parse_state_count s = .ok [] := by
  have hstrip : pyStrip s.data = [] := by
    have h1 : s.data.dropWhile pyIsSpace = [] :=
      List.dropWhile_eq_nil_iff.mpr h
    unfold pyStrip
    rw [h1]
    simp
  unfold parse_state_count
  rw [hstrip]
  simp only [pySplitWs, List.splitOnP_nil, List.filter, List.map_nil]
  rfl

/-- C10 witness: the empty string and an all-whitespace string. -/
theorem parse_state_count_whitespace_witness :
    parse_state_count "" = .ok [] ∧ parse_state_count "  \t " = .ok [] :=
  ⟨parse_state_count_whitespace "" (by decide),
   parse_state_count_whitespace "  \t " (by decide)⟩

/-! ### C8: the natural sort key -/

/-- A digit character is not whitespace. -/
theorem digit_not_space {c : Char} (h : c.isDigit = true) :
    pyIsSpace c = false := by
  cases hc : pyIsSpace c with
  | false => rfl
  | true =>
    exfalso
    simp only [pyIsSpace, Bool.or_eq_true, decide_eq_true_eq] at hc
    rcases hc with ((((rfl | rfl) | rfl) | rfl) | rfl) | rfl <;>
      exact absurd h (by decide)

/-- A digit character is not an underscore. -/
theorem digit_not_underscore {c : Char} (h : c.isDigit = true) : ¬c = '_' := by
  intro hc
  subst hc
  exact absurd h (by decide)

/-- `strip` leaves a string without surrounding whitespace unchanged. -/
theorem pyStrip_eq_self {cs : List Char}
    (h : ∀ c ∈ cs, pyIsSpace c = false) : pyStrip cs = cs := by
  have hdw : ∀ (l : List Char), (∀ c ∈ l, pyIsSpace c = false) →
      l.dropWhile pyIsSpace = l := by
    intro l hl
    cases l with
    | nil => rfl
    | cons a rest =>
      rw [List.dropWhile_cons, hl a (List.mem_cons_self a rest)]
      simp
  unfold pyStrip
  rw [hdw cs h, hdw cs.reverse (fun c hc => h c (List.mem_reverse.mp hc)),
    List.reverse_reverse]

/-- Underscore-free digit runs satisfy the digit grammar of `int`. -/
theorem decDigitsRest_of_digits : ∀ {cs : List Char},
    (∀ c ∈ cs, c.isDigit = true) → decDigitsRest cs = true := by
  intro cs
  induction cs with
  | nil => intro _; rfl
  | cons c rest ih =>
    intro h
    have hc : c.isDigit = true := h c (List.mem_cons_self c rest)
    rw [decDigitsRest.eq_def]
    split
    · rfl
    · rename_i heq
      exact absurd (List.head_eq_of_cons_eq heq) (digit_not_underscore hc)
    · rename_i c' rest' hne heq
      obtain ⟨h1, h2⟩ := List.cons_eq_cons.mp heq
      subst h1
      subst h2
      rw [hc, ih (fun a ha => h a (List.mem_cons_of_mem c ha))]
      rfl

/-- `int` accepts a nonempty run of decimal digits and returns its
value. -/
theorem pyInt_all_digits {cs : List Char} (hne : cs ≠ [])
    (hall : ∀ c ∈ cs, c.isDigit = true) :
    pyInt cs = .ok (digitsToNat cs) := by
  have hns : ∀ c ∈ cs, pyIsSpace c = false :=
    fun c hc => digit_not_space (hall c hc)
  have hfilter : cs.filter (· ≠ '_') = cs := by
    rw [List.filter_eq_self]
    intro c hc
    simpa using digit_not_underscore (hall c hc)
  have hdec : decDigits cs = true := by
    cases cs with
    | nil => exact absurd rfl hne
    | cons c rest =>
      show (c.isDigit && decDigitsRest rest) = true
      rw [hall c (List.mem_cons_self c rest),
        decDigitsRest_of_digits (fun a ha => hall a (List.mem_cons_of_mem c ha))]
      rfl
  unfold pyInt
  rw [pyStrip_eq_self hns]
  cases cs with
  | nil => exact absurd rfl hne
  | cons c rest =>
    have hcd := hall c (List.mem_cons_self c rest)
    rw [pyIntCore.eq_def]
    split
    · rename_i heq
      exact absurd (by rw [List.head_eq_of_cons_eq heq] at hcd; exact hcd)
        (by decide)
    · rename_i heq
      exact absurd (by rw [List.head_eq_of_cons_eq heq] at hcd; exact hcd)
        (by decide)
    · rw [hdec, if_pos rfl, hfilter]

/-- The digit-run split pieces concatenate back to the input (pieces in
original order). -/
theorem splitDigitRuns_join : ∀ cs : List Char,
    (splitDigitRuns cs).join = cs := by
  intro cs
  induction cs with
  | nil => rfl
  | cons c cs ih =>
    simp only [splitDigitRuns]
    cases hd : c.isDigit with
    | false =>
      cases hsp : splitDigitRuns cs with
      | nil =>
        rw [hsp] at ih
        simp only [List.join_nil] at ih
        simp [← ih]
      | cons t rest =>
        rw [hsp] at ih
        simp only [List.join_cons] at ih ⊢
        simp [← ih]
    | true =>
      cases hsp : splitDigitRuns cs with
      | nil =>
        rw [hsp] at ih
        simp only [List.join_nil] at ih
        simp [← ih]
      | cons t rest =>
        rw [hsp] at ih
        cases t with
        | nil =>
          cases rest with
          | nil =>
            simp only [List.join_cons, List.join_nil, List.nil_append] at ih
            simp [← ih]
          | cons r rest2 =>
            simp only [List.join_cons, List.nil_append] at ih ⊢
            simp [← ih]
        | cons t0 ts =>
          simp only [List.join_cons] at ih ⊢
          simp [← ih]

/-- The token the spec assigns to one split piece: a digit run becomes
its integer value, every other piece stays a string. -/
def specToken (p : List Char) : SortToken :=
  if p ≠ [] ∧ p.all Char.isDigit = true then .n (digitsToNat p) else .s ⟨p⟩

/-- C8 counterexample: the claim covers *every* identifier string, but
`natural_sort_key "²"` raises `ValueError` instead of returning the
token `[.s "²"]`: `"²".isdigit()` is true (Unicode digit property) while
`int("²")` rejects the non-decimal digit. -/
theorem natural_sort_key_superscript_raises :
    natural_sort_key "²" = .error .valueError ∧
    natural_sort_key "²" ≠ .ok [.s "²"] := by
  constructor <;> decide

/-- C8 (amended): for identifier strings free of digit-property
characters outside `0`–`9` (such as `²`), `natural_sort_key` is exactly
the split on maximal digit runs with digit runs converted to integers
and the other pieces kept as strings; the pieces concatenate back to
the input in order, the empty string yields the single empty-string
token, and `"job2" < "job10" < "job10a"` under the lexicographic key
comparison. -/
theorem natural_sort_key_spec (s : String)
    (h : ∀ c ∈ s.data, isSuperscriptDigit c = false) :
    natural_sort_key s = .ok ((splitDigitRuns s.data).map specToken) ∧
    (splitDigitRuns s.data).join = s.data ∧
    natural_sort_key "" = .ok [.s ""] ∧
    natural_sort_key "job2" = .ok [.s "job", .n 2, .s ""] ∧
    natural_sort_key "job10" = .ok [.s "job", .n 10, .s ""] ∧
    natural_sort_key "job10a" = .ok [.s "job", .n 10, .s "a"] ∧
    keyLtb [.s "job", .n 2, .s ""] [.s "job", .n 10, .s ""] = true ∧
    keyLtb [.s "job", .n 10, .s ""] [.s "job", .n 10, .s "a"] = true := by
  refine ⟨?_, splitDigitRuns_join s.data, by decide, by decide, by decide,
    by decide, by decide, by decide⟩
  unfold natural_sort_key
  apply mapM_ok_map
  intro part hp
  have hsub : ∀ c ∈ part, c ∈ s.data := by
    intro c hc
    rw [← splitDigitRuns_join s.data]
    exact List.mem_join.mpr ⟨part, hp, hc⟩
  by_cases hd : pyIsdigit part = true
  · rw [if_pos hd]
    unfold pyIsdigit at hd
    rw [Bool.and_eq_true] at hd
    have hne : part ≠ [] := by
      intro hcontra
      rw [hcontra] at hd
      simp at hd
    have hall : ∀ c ∈ part, c.isDigit = true := by
      intro c hc
      have h1 := List.all_eq_true.mp hd.2 c hc
      simp only [pyIsDigitChar, Bool.or_eq_true] at h1
      rcases h1 with h1 | h1
      · exact h1
      · rw [h c (hsub c hc)] at h1
        exact Bool.noConfusion h1
    rw [pyInt_all_digits hne hall]
    unfold specToken
    rw [if_pos ⟨hne, List.all_eq_true.mpr (fun c hc => hall c hc)⟩]
    rfl
  · rw [if_neg hd]
    unfold specToken
    rw [if_neg]
    intro ⟨hne, hall⟩
    apply hd
    unfold pyIsdigit
    rw [Bool.and_eq_true]
    refine ⟨by simpa using hne, ?_⟩
    rw [List.all_eq_true] at hall ⊢
    intro c hc
    simp only [pyIsDigitChar, Bool.or_eq_true]
    exact Or.inl (hall c hc)

/-- C8 witness: the amended claim at the identifier `"14.server"`. -/
theorem natural_sort_key_spec_witness :
    natural_sort_key "14.server" =
      .ok ((splitDigitRuns "14.server".data).map specToken) :=
  (natural_sort_key_spec "14.server" (by decide)).1

/-! ### C4: the state-count decoder -/

/-- The `name:count` parts `parse_state_count` iterates over. -/
def statePairs (s : String) : List (List (List Char)) :=
  (pySplitWs (pyStrip s.data)).map pySplitColon

/-- A well-formed part: exactly one colon (two pieces) and a count that
`int(...)` accepts. -/
def GoodPair (p : List (List Char)) : Prop :=
  ∃ name count, p = [name, count] ∧ ∃ n, pyInt count = .ok n

/-- Membership in a Python dict after an assignment. -/
theorem mem_setKey {α : Type} :
    ∀ {l : List (String × α)} {k : String} {v : α} {e : String × α},
      e ∈ setKey l k v → e ∈ l ∨ e = (k, v) := by
  intro l
  induction l with
  | nil =>
    intro k v e he
    simp only [setKey, List.mem_singleton] at he
    exact Or.inr he
  | cons kv rest ih =>
    intro k v e he
    obtain ⟨k', v'⟩ := kv
    rw [setKey] at he
    by_cases hk : k' = k
    · rw [if_pos hk] at he
      rcases List.mem_cons.mp he with h | h
      · exact Or.inr h
      · exact Or.inl (List.mem_cons_of_mem _ h)
    · rw [if_neg hk] at he
      rcases List.mem_cons.mp he with h | h
      · exact Or.inl (h ▸ List.mem_cons_self _ _)
      · rcases ih h with h' | h'
        · exact Or.inl (List.mem_cons_of_mem _ h')
        · exact Or.inr h'

theorem stateCountStep_ok {acc acc' : List (String × Int)}
    {p : List (List Char)} (h : stateCountStep acc p = .ok acc') :
    ∃ name count n, p = [name, count] ∧ pyInt count = .ok n ∧
      acc' = setKey acc (pyLower ⟨name⟩) n := by
  rw [stateCountStep.eq_def] at h
  split at h
  · rename_i name count
    cases hint : pyInt count with
    | error e => rw [hint] at h; simp [Except.map] at h
    | ok n =>
      rw [hint] at h
      simp only [Except.map, Except.ok.injEq] at h
      exact ⟨name, count, n, rfl, hint, h.symm⟩
  · exact absurd h (by simp)

theorem stateCountStep_good {acc : List (String × Int)}
    {p : List (List Char)} (h : GoodPair p) :
    ∃ acc', stateCountStep acc p = .ok acc' := by
  obtain ⟨name, count, rfl, n, hn⟩ := h
  exact ⟨setKey acc (pyLower ⟨name⟩) n, by simp [stateCountStep, hn, Except.map]⟩

theorem foldlM_state_ok_forall :
    ∀ {l : List (List (List Char))} {acc m : List (String × Int)},
      l.foldlM stateCountStep acc = .ok m → ∀ p ∈ l, GoodPair p := by
  intro l
  induction l with
  | nil => intro acc m _ p hp; cases hp
  | cons q rest ih =>
    intro acc m h p hp
    rw [List.foldlM_cons] at h
    obtain ⟨acc', hq, hrest⟩ := except_bind_ok.mp h
    rcases hp with _ | hp
    · obtain ⟨name, count, n, rfl, hint, -⟩ := stateCountStep_ok hq
      exact ⟨name, count, rfl, n, hint⟩
    · exact ih hrest p (by assumption)

theorem foldlM_state_ok_of_forall :
    ∀ {l : List (List (List Char))} (acc : List (String × Int)),
      (∀ p ∈ l, GoodPair p) → ∃ m, l.foldlM stateCountStep acc = .ok m := by
  intro l
  induction l with
  | nil => intro acc _; exact ⟨acc, rfl⟩
  | cons q rest ih =>
    intro acc h
    obtain ⟨acc', hq⟩ := stateCountStep_good (h q (List.mem_cons_self q rest))
    obtain ⟨m, hm⟩ := ih acc' (fun p hp => h p (List.mem_cons_of_mem q hp))
    refine ⟨m, ?_⟩
    rw [List.foldlM_cons, hq]
    exact hm

theorem foldlM_state_entries {P : String × Int → Prop} :
    ∀ {l : List (List (List Char))} {acc m : List (String × Int)},
      (∀ e ∈ acc, P e) →
      (∀ name count n, [name, count] ∈ l → pyInt count = .ok n →
        P (pyLower ⟨name⟩, n)) →
      l.foldlM stateCountStep acc = .ok m → ∀ e ∈ m, P e := by
  intro l
  induction l with
  | nil =>
    intro acc m hacc _ h e he
    simp only [List.foldlM_nil] at h
    cases h
    exact hacc e he
  | cons q rest ih =>
    intro acc m hacc hl h e he
    rw [List.foldlM_cons] at h
    obtain ⟨acc', hq, hrest⟩ := except_bind_ok.mp h
    obtain ⟨name, count, n, rfl, hint, hset⟩ := stateCountStep_ok hq
    have hacc' : ∀ e ∈ acc', P e := by
      intro e' he'
      rw [hset] at he'
      rcases mem_setKey he' with h' | h'
      · exact hacc e' h'
      · rw [h']
        exact hl name count n (List.mem_cons_self _ _) hint
    exact ih hacc' (fun nm ct v hm hv =>
      hl nm ct v (List.mem_cons_of_mem _ hm) hv) hrest e he

/-- C4: `parse_state_count` succeeds exactly when every
whitespace-separated part has exactly one colon and an
`int`-acceptable count (otherwise it raises `ValueError` and returns no
mapping at all — the `Except` carries either the whole dict or only the
error), and every entry of the returned mapping is the lower-cased name
of one of the parts paired with its parsed base-10 count. -/
theorem parse_state_count_spec (s : String) :
    ((∃ m, parse_state_count s = .ok m) ↔ ∀ p ∈ statePairs s, GoodPair p) ∧
    (∀ m, parse_state_count s = .ok m → ∀ e ∈ m,
      ∃ name count n, [name, count] ∈ statePairs s ∧ pyInt count = .ok n ∧
        e = (pyLower ⟨name⟩, n)) := by
  constructor
  · constructor
    · rintro ⟨m, hm⟩
      exact foldlM_state_ok_forall hm
    · intro h
      exact foldlM_state_ok_of_forall [] h
  · intro m hm e he
    refine foldlM_state_entries
      (P := fun e => ∃ name count n, [name, count] ∈ statePairs s ∧
        pyInt count = .ok n ∧ e = (pyLower ⟨name⟩, n))
      (fun e' he' => absurd he' (List.not_mem_nil e')) ?_ hm e he
    intro name count n hmem hint
    exact ⟨name, count, n, hmem, hint, rfl⟩

/-- C4 witness: the decoder at `"Q:3 R:5 H:1"` (every part is
well-formed, so the spec applies and the concrete mapping is
`{"q": 3, "r": 5, "h": 1}`) and at the malformed `"Q:3 R5"`. -/
theorem parse_state_count_spec_witness :
    GoodPair [['Q'], ['3']] ∧
    parse_state_count "Q:3 R:5 H:1" = .ok [("q", 3), ("r", 5), ("h", 1)] ∧
    parse_state_count "Q:3 R5" = .error .valueError :=
  ⟨(parse_state_count_spec "Q:3 R:5 H:1").1.mp
      ⟨[("q", 3), ("r", 5), ("h", 1)], by decide⟩ [['Q'], ['3']] (by decide),
   by decide, by decide⟩

/-! ### C3 and C6: placeholders and the resource tables -/

/-- The value one group contributes for one resource after lookup: the
group's entry, or the table's placeholder when the group or the entry
is absent. Matches the code's `data.get(group, {}).get(key, ph)` when
every present group is a dict (the hypothesis of the table lemmas). -/
def groupCell (data : List (String × Value)) (ph : String)
    (g key : String) : Value :=
  match alookup data g with
  | some (.dict gd) => agetD gd key (.str ph)
  | some _ => .str ph
  | none => .str ph

theorem alookup_map_self {β : Type} (F : String → β) :
    ∀ (l : List String) (k : String), k ∈ l →
      alookup (l.map (fun x => (x, F x))) k = some (F k) := by
  intro l
  induction l with
  | nil => intro k hk; cases hk
  | cons x rest ih =>
    intro k hk
    simp only [List.map_cons, alookup]
    by_cases hx : x = k
    · subst hx
      simp
    · rw [if_neg hx]
      rcases List.mem_cons.mp hk with h | h
      · exact absurd h.symm hx
      · exact ih k h

theorem anyME_ok_map {α : Type} {f : α → Except PyErr Bool} {g : α → Bool} :
    ∀ {l : List α}, (∀ a ∈ l, f a = .ok (g a)) →
      anyME f l = .ok (l.any g) := by
  intro l
  induction l with
  | nil => intro _; rfl
  | cons a as ih =>
    intro h
    show (f a >>= fun b => if b then .ok true else anyME f as) = _
    rw [h a (List.mem_cons_self a as)]
    cases hg : g a with
    | true => simp [Bind.bind, Except.bind, List.any_cons, hg]
    | false =>
      simp only [Bind.bind, Except.bind, if_neg (by simp [hg] : ¬(g a = true)),
        List.any_cons, hg, Bool.false_or]
      exact ih (fun x hx => h x (List.mem_cons_of_mem a hx))

/-- Under the dict-shaped-groups hypothesis, `resourceGroups` computes
to the `groupCell` table. -/
theorem resourceGroups_ok {gnames : List String} {ph : String}
    {data : List (String × Value)}
    (h : ∀ g ∈ gnames, ∀ v, alookup data g = some v → ∃ gd, v = .dict gd) :
    resourceGroups gnames ph data = .ok (expected_resource_keys.map (fun key =>
      (key, Value.dict (gnames.map (fun g =>
        (preprocess_group_key g, groupCell data ph g key)))))) := by
  apply mapM_ok_map
  intro key _
  have hinner : gnames.mapM (fun g => do
      let gd ← asDict (agetD data g (.dict []))
      Except.ok (preprocess_group_key g, agetD gd key (.str ph))) =
      .ok (gnames.map (fun g =>
        (preprocess_group_key g, groupCell data ph g key))) := by
    apply mapM_ok_map
    intro g hg
    cases hl : alookup data g with
    | none =>
      simp only [agetD, hl, Option.getD, asDict, groupCell, Bind.bind,
        Except.bind]
      rfl
    | some v =>
      obtain ⟨gd, rfl⟩ := h g hg v hl
      simp only [agetD, hl, Option.getD, asDict, groupCell, Bind.bind,
        Except.bind]
  show (gnames.mapM (fun g => do
      let gd ← asDict (agetD data g (.dict []))
      Except.ok (preprocess_group_key g, agetD gd key (.str ph))) >>=
    fun groups => Except.ok (key, Value.dict groups)) = _
  rw [hinner]
  rfl

/-- Every display label's data key is one of the expected resources. -/
theorem translations_sub : ∀ t ∈ resource_translations,
    t.2 ∈ expected_resource_keys := by decide

/-- `preprocess_resource_table` of the `groupCell` table, by label. -/
theorem preprocess_resource_table_ok {gnames : List String} {ph : String}
    {data : List (String × Value)} :
    preprocess_resource_table (expected_resource_keys.map (fun key =>
      (key, Value.dict (gnames.map (fun g =>
        (preprocess_group_key g, groupCell data ph g key)))))) =
    resource_translations.map (fun t => (t.1, Value.dict (gnames.map (fun g =>
      (preprocess_group_key g, groupCell data ph g t.2))))) := by
  unfold preprocess_resource_table
  apply List.map_congr_left
  intro t ht
  rw [agetD, alookup_map_self _ _ _ (translations_sub t ht)]
  rfl

/-- The rendered rows of either resource table over the `groupCell`
table. -/
theorem resource_rows_ok {gnames : List String} {ph : String}
    {data : List (String × Value)} :
    ((resource_translations.map (fun t => (t.1, Value.dict (gnames.map (fun g =>
        (preprocess_group_key g, groupCell data ph g t.2)))))).mapM
      (fun t : String × Value => do
        let g ← asDict t.2
        Except.ok (Value.str t.1 :: g.map (·.2))) :
      Except PyErr (List (List Value))) =
    .ok (resource_translations.map (fun t => Value.str t.1 ::
      gnames.map (fun g => groupCell data ph g t.2))) := by
  have h := mapM_ok_map
    (f := fun t : String × Value =>
      (do
        let g ← asDict t.2
        Except.ok (Value.str t.1 :: g.map (·.2)) :
        Except PyErr (List Value)))
    (g := fun t : String × Value => Value.str t.1 ::
      (match t.2 with | .dict g => g.map (·.2) | _ => []))
    (l := resource_translations.map (fun t => (t.1, Value.dict (gnames.map
      (fun g => (preprocess_group_key g, groupCell data ph g t.2))))))
    (by
      intro a ha
      obtain ⟨t, -, rfl⟩ := List.mem_map.mp ha
      rfl)
  refine h.trans ?_
  congr 1
  rw [List.map_map]
  apply List.map_congr_left
  intro t _
  simp [Function.comp, List.map_map]

/-- The emptiness test of the queue resource table, characterized. -/
theorem resource_any_char {data : List (String × Value)} :
    ((resource_translations.map (fun t => (t.1, Value.dict
        (queue_group_names.map (fun g =>
          (preprocess_group_key g, groupCell data "(unset)" g t.2)))))).any
      (fun t => match t.2 with
        | .dict g => g.any (fun e => e.2 ≠ Value.str "(unset)")
        | _ => false) = false) ↔
    (∀ t ∈ resource_translations, ∀ g ∈ queue_group_names,
      groupCell data "(unset)" g t.2 = .str "(unset)") := by
  rw [List.any_eq_false]
  constructor
  · intro h t ht g hg
    have := h _ (List.mem_map.mpr ⟨t, ht, rfl⟩)
    simp only [List.any_eq_true, not_exists, not_and] at this
    have h2 := this (preprocess_group_key g, groupCell data "(unset)" g t.2)
      (List.mem_map.mpr ⟨g, hg, rfl⟩)
    simpa using h2
  · intro h a ha
    obtain ⟨t, ht, rfl⟩ := List.mem_map.mp ha
    simp only [List.any_eq_true, not_exists, not_and]
    intro e he
    obtain ⟨g, hg, rfl⟩ := List.mem_map.mp he
    simpa using h t ht g hg

/-- C6 helper: full characterization of `update_resource_table`
(queue details): the table is disabled with zero rows exactly when
every group's value for every resource is `"(unset)"`, and otherwise
renders one row per display label with the group values. -/
theorem update_resource_table_char (data : List (String × Value))
    (st : TableState)
    (h : ∀ g ∈ queue_group_names, ∀ v, alookup data g = some v →
      ∃ gd, v = .dict gd) :
    ∃ st', update_resource_table data st = .ok st' ∧
      (st'.disabled = true ↔ ∀ t ∈ resource_translations,
        ∀ g ∈ queue_group_names,
          groupCell data "(unset)" g t.2 = .str "(unset)") ∧
      (st'.disabled = true → st'.rows = []) ∧
      (st'.disabled = false → st'.rows = resource_translations.map
        (fun t => Value.str t.1 :: queue_group_names.map
          (fun g => groupCell data "(unset)" g t.2))) := by
  have hres := @resourceGroups_ok queue_group_names "(unset)" data h
  have hany : anyME (fun t : String × Value => do
      let g ← asDict t.2
      Except.ok (g.any (fun e => e.2 ≠ Value.str "(unset)")))
      (resource_translations.map (fun t => (t.1, Value.dict
        (queue_group_names.map (fun g =>
          (preprocess_group_key g, groupCell data "(unset)" g t.2)))))) =
      .ok ((resource_translations.map (fun t => (t.1, Value.dict
        (queue_group_names.map (fun g =>
          (preprocess_group_key g, groupCell data "(unset)" g t.2)))))).any
        (fun t => match t.2 with
          | .dict g => g.any (fun e => e.2 ≠ Value.str "(unset)")
          | _ => false)) := by
    apply anyME_ok_map
    intro a ha
    obtain ⟨t, -, rfl⟩ := List.mem_map.mp ha
    rfl
  unfold update_resource_table
  rw [hres]
  simp only [Bind.bind, Except.bind]
  rw [@preprocess_resource_table_ok queue_group_names "(unset)" data]
  simp only [Bind.bind, Except.bind] at hany
  rw [hany]
  cases hcond : (resource_translations.map (fun t => (t.1, Value.dict
      (queue_group_names.map (fun g =>
        (preprocess_group_key g, groupCell data "(unset)" g t.2)))))).any
      (fun t => match t.2 with
        | .dict g => g.any (fun e => e.2 ≠ Value.str "(unset)")
        | _ => false) with
  | true =>
    simp only [if_pos rfl]
    have hrows := @resource_rows_ok queue_group_names "(unset)" data
    simp only [Bind.bind, Except.bind] at hrows
    rw [hrows]
    refine ⟨_, rfl, ?_, ?_, ?_⟩
    · constructor
      · intro hfalse
        cases hfalse
      · intro hall
        exact absurd hcond (by rw [resource_any_char.mpr hall]; simp)
    · intro hfalse
      cases hfalse
    · intro _
      rfl
  | false =>
    simp only [if_neg (by simp : ¬(false = true))]
    refine ⟨_, rfl, ?_, ?_, ?_⟩
    · exact iff_of_true rfl (resource_any_char.mp hcond)
    · intro _
      rfl
    · intro hfalse
      cases hfalse

/-- C6 helper: the job-detail resource table always renders one row per
display label with the `"(none)"` placeholder for absent values, and
never touches the table's disabled flag. -/
theorem update_resources_char (data : List (String × Value))
    (st : TableState)
    (h : ∀ g ∈ job_group_names, ∀ v, alookup data g = some v →
      ∃ gd, v = .dict gd) :
    update_resources data st = .ok ⟨resource_translations.map
      (fun t => Value.str t.1 :: job_group_names.map
        (fun g => groupCell data "(none)" g t.2)), st.disabled⟩ := by
  have hres := @resourceGroups_ok job_group_names "(none)" data h
  have hrows := @resource_rows_ok job_group_names "(none)" data
  unfold update_resources
  rw [hres]
  simp only [Bind.bind, Except.bind]
  rw [@preprocess_resource_table_ok job_group_names "(none)" data]
  simp only [Bind.bind, Except.bind] at hrows
  rw [hrows]

/-- C6 counterexample: the claim says the job-detail resource table is
flagged disabled/empty when every value is the placeholder, instead of
rendering all-placeholder rows. On a record with no resource groups,
`update_resources` renders seven all-`"(none)"` rows and leaves the
table's disabled flag untouched (`False`): `screens/job.py` has no
emptiness test and never assigns `table.disabled`. -/
theorem update_resources_renders_placeholder_rows :
    update_resources [] ⟨[], false⟩ = .ok
      ⟨[[.str "memory", .str "(none)", .str "(none)"],
        [.str "# MPI processes", .str "(none)", .str "(none)"],
        [.str "# cpus", .str "(none)", .str "(none)"],
        [.str "# nodes", .str "(none)", .str "(none)"],
        [.str "select", .str "(none)", .str "(none)"],
        [.str "walltime", .str "(none)", .str "(none)"],
        [.str "place", .str "(none)", .str "(none)"]], false⟩ := by
  decide

/-- C6 (amended): for records whose present resource groups are dicts,
the *queue* resource table is flagged disabled with zero rows exactly
when every group's value for every expected resource is `"(unset)"`,
and otherwise renders one row per expected resource with the table
enabled; the *job-detail* resource table instead always renders one row
per expected resource (placeholder `"(none)"`) and never sets the
disabled flag. -/
theorem resource_table_emptiness (data : List (String × Value))
    (st : TableState)
    (hq : ∀ g ∈ queue_group_names, ∀ v, alookup data g = some v →
      ∃ gd, v = .dict gd)
    (hj : ∀ g ∈ job_group_names, ∀ v, alookup data g = some v →
      ∃ gd, v = .dict gd) :
    (∃ st', update_resource_table data st = .ok st' ∧
      (st'.disabled = true ↔ ∀ t ∈ resource_translations,
        ∀ g ∈ queue_group_names,
          groupCell data "(unset)" g t.2 = .str "(unset)") ∧
      (st'.disabled = true → st'.rows = []) ∧
      (st'.disabled = false → st'.rows.length = 7)) ∧
    (∃ rows, update_resources data st = .ok ⟨rows, st.disabled⟩ ∧
      rows.length = 7 ∧
      rows = resource_translations.map (fun t => Value.str t.1 ::
        job_group_names.map (fun g => groupCell data "(none)" g t.2))) := by
  constructor
  · obtain ⟨st', hok, hiff, hrows0, hrows⟩ := update_resource_table_char data st hq
    refine ⟨st', hok, hiff, hrows0, ?_⟩
    intro hd
    rw [hrows hd, List.length_map]
    rfl
  · refine ⟨_, update_resources_char data st hj, ?_, rfl⟩
    rw [List.length_map]
    rfl

/-- C6 witness: a record assigning `ncpus` in `resources_max` enables
the queue resource table; an empty record keeps the job table's
disabled flag. -/
theorem resource_table_emptiness_witness :
    (∃ st', update_resource_table [("resources_max", .dict [("ncpus", .int 4)])]
        ⟨[], false⟩ = .ok st' ∧
      (st'.disabled = true ↔ ∀ t ∈ resource_translations,
        ∀ g ∈ queue_group_names,
          groupCell [("resources_max", .dict [("ncpus", .int 4)])]
            "(unset)" g t.2 = .str "(unset)") ∧
      (st'.disabled = true → st'.rows = []) ∧
      (st'.disabled = false → st'.rows.length = 7)) :=
  (resource_table_emptiness [("resources_max", .dict [("ncpus", .int 4)])]
    ⟨[], false⟩
    (by
      intro g hg v hv
      fin_cases hg <;> simp [alookup] at hv
      exact ⟨_, hv.symm⟩)
    (by
      intro g hg v hv
      fin_cases hg <;> simp [alookup] at hv)).1

/-- C3 counterexample: both list-view row extractors raise `KeyError`
for a projected-but-absent attribute instead of substituting a
placeholder; the claim says row extraction never raises and always
places the table's placeholder. -/
theorem extract_row_raises_on_missing_key :
    extract_row_job "1"
      (.dict [("attributes", .dict [("job_state", .str "R")])]) =
      .error (.keyError "queue") ∧
    extract_row_queue "1"
      (.dict [("attributes", .dict []), ("description", .str "d")]) =
      .error (.keyError "queue_type") := by
  constructor <;> decide

/-- C3 (amended): the placeholder policy holds for the tables that have
one — job-detail and job-properties cells fall back to `"(missing)"`,
queue-settings cells to `"(unset)"`, queue resource cells to
`"(unset)"`, and the job-list walltime column to `"(not running)"` when
`resources_used` or its `walltime` entry is absent (given the four
required job keys are present) — but the job-list and queue-list
extractors raise `KeyError` for their other projected keys
(see the counterexample). -/
theorem missing_key_placeholders :
    (∀ (data : List (String × Value)) (k : String), k ∈ job_detail_keys →
      alookup data k = none →
      (k, Value.str "(missing)") ∈ update_job_details data) ∧
    (∀ (data : List (String × Value)) (k : String), k ∈ job_property_keys →
      alookup data k = none →
      (k, Value.str "(missing)") ∈ update_properties data) ∧
    (∀ (data : List (String × Value)) (k : String), k ∈ queue_info_keys →
      alookup data k = none →
      (k, Value.str "(unset)") ∈ update_settings_table data) ∧
    (∀ (data : List (String × Value)) (g key : String),
      alookup data g = none ∨ (∃ gd, alookup data g = some (.dict gd) ∧
        alookup gd key = none) →
      groupCell data "(unset)" g key = .str "(unset)") ∧
    (∀ (id : String) (d : Value) (kvs : List (String × Value)),
      getItem d "attributes" = .ok (.dict kvs) →
      ∀ sv qv nv ov, alookup (lowerKeysDict kvs) "job_state" = some sv →
        isHashable sv = true →
        alookup (lowerKeysDict kvs) "queue" = some qv →
        alookup (lowerKeysDict kvs) "job_name" = some nv →
        alookup (lowerKeysDict kvs) "job_owner" = some ov →
        (alookup (lowerKeysDict kvs) "resources_used" = none ∨
          ∃ gd, alookup (lowerKeysDict kvs) "resources_used" =
            some (.dict gd) ∧ alookup gd "walltime" = none) →
        ∃ sv', extract_row_job id d =
          .ok [.str id, qv, sv', nv, ov, .str "(not running)"]) := by
  refine ⟨?_, ?_, ?_, ?_, ?_⟩
  · intro data k hk hnone
    exact List.mem_map.mpr ⟨k, hk, by simp [agetD, hnone]⟩
  · intro data k hk hnone
    exact List.mem_map.mpr ⟨k, hk, by simp [agetD, hnone]⟩
  · intro data k hk hnone
    exact List.mem_map.mpr ⟨k, hk, by simp [agetD, hnone]⟩
  · intro data g key hcase
    rcases hcase with hnone | ⟨gd, hsome, hkey⟩
    · simp [groupCell, hnone]
    · simp [groupCell, hsome, agetD, hkey]
  · intro id d kvs hattr sv qv nv ov hsv hhash hqv hnv hov hru
    have hru' : ∃ ru, asDict (agetD (lowerKeysDict kvs) "resources_used"
        (.dict [])) = .ok ru ∧
        agetD ru "walltime" (.str "(not running)") = .str "(not running)" := by
      rcases hru with hnone | ⟨gd, hsome, hkey⟩
      · exact ⟨[], by simp [agetD, hnone, asDict], rfl⟩
      · exact ⟨gd, by simp [agetD, hsome, asDict], by simp [agetD, hkey]⟩
    obtain ⟨ru, hruok, hwall⟩ := hru'
    have hst' : ∃ sv', translateState sv = .ok sv' := by
      cases sv with
      | list vs => exact absurd hhash (by simp [isHashable])
      | dict kvs' => exact absurd hhash (by simp [isHashable])
      | str s => exact ⟨_, rfl⟩
      | null => exact ⟨_, rfl⟩
      | bool b => exact ⟨_, rfl⟩
      | int n => exact ⟨_, rfl⟩
    obtain ⟨sv', hst⟩ := hst'
    refine ⟨sv', ?_⟩
    have had : asDict (Value.dict kvs) = .ok kvs := rfl
    simp only [extract_row_job, hattr, Bind.bind, Except.bind, had, hsv, hqv,
      hnv, hov, hst, hruok, hwall]

/-- C3 witness: a job-detail record without `"project"` renders the
`"(missing)"` cell. -/
theorem missing_key_placeholders_witness :
    ("project", Value.str "(missing)") ∈
      update_job_details [("job_name", Value.str "x")] :=
  missing_key_placeholders.1 [("job_name", Value.str "x")] "project"
    (by decide) (by decide)

/-! ### C5: the shallow search -/

/-- A successfully extracted job row starts with the entity ID. -/
theorem extract_row_job_head {id : String} {v : Value} {row : List Value}
    (h : extract_row_job id v = .ok row) :
    ∃ rest, row = .str id :: rest := by
  simp only [extract_row_job, Bind.bind, Except.bind] at h
  repeat' split at h
  all_goals
    first
      | exact Except.noConfusion h
      | (injection h with hrow; exact ⟨_, hrow.symm⟩)

/-- A successfully extracted queue row starts with the entity ID. -/
theorem extract_row_queue_head {id : String} {v : Value} {row : List Value}
    (h : extract_row_queue id v = .ok row) :
    ∃ rest, row = .str id :: rest := by
  simp only [extract_row_queue, Bind.bind, Except.bind] at h
  repeat' split at h
  all_goals
    first
      | exact Except.noConfusion h
      | (injection h with hrow; exact ⟨_, hrow.symm⟩)

/-- Over a row of strings, the short-circuit `any(match(v) ...)` is the
existence of a prefix-matching column value. -/
theorem anyMatch_spec {r : Regex} : ∀ {row : List Value},
    (∀ c ∈ row, ∃ s, c = .str s) →
    ∃ b, anyMatch r row = .ok b ∧
      (b = true ↔ ∃ s, Value.str s ∈ row ∧ reMatch r s = true) := by
  intro row
  induction row with
  | nil =>
    intro _
    exact ⟨false, rfl, by simp⟩
  | cons c rest ih =>
    intro h
    obtain ⟨s, rfl⟩ := h c (List.mem_cons_self c rest)
    cases hm : reMatch r s with
    | true =>
      refine ⟨true, by simp [anyMatch, hm], ?_⟩
      simp only [true_iff]
      exact ⟨s, List.mem_cons_self _ _, hm⟩
    | false =>
      obtain ⟨b, hb, hiff⟩ := ih (fun c hc => h c (List.mem_cons_of_mem _ hc))
      refine ⟨b, by simp [anyMatch, hm, hb], ?_⟩
      rw [hiff]
      constructor
      · rintro ⟨s', hs', hm'⟩
        exact ⟨s', List.mem_cons_of_mem _ hs', hm'⟩
      · rintro ⟨s', hs', hm'⟩
        rcases List.mem_cons.mp hs' with heq | hs'
        · injection heq with heq'
          rw [heq'] at hm'
          rw [hm'] at hm
          exact Bool.noConfusion hm
        · exact ⟨s', hs', hm'⟩

/-- The filtering dict comprehension of the search handlers: it
succeeds on all-string rows, keeps a subsequence of the snapshot, and
retains exactly the entries with a matching column value. -/
theorem filterMatches_spec
    {extract : String → Value → Except PyErr (List Value)} {r : Regex} :
    ∀ {data : Snapshot},
      (∀ q ∈ data, ∃ row, extract q.1 q.2 = .ok row ∧
        ∀ c ∈ row, ∃ s, c = .str s) →
      ∃ nd, filterMatches extract r data = .ok nd ∧ nd.Sublist data ∧
        (∀ q ∈ data, (q ∈ nd ↔ ∃ row, extract q.1 q.2 = .ok row ∧
          ∃ s, Value.str s ∈ row ∧ reMatch r s = true)) := by
  intro data
  induction data with
  | nil =>
    intro _
    exact ⟨[], rfl, List.Sublist.refl [], fun q hq => absurd hq (List.not_mem_nil q)⟩
  | cons q rest ih =>
    intro h
    obtain ⟨row, hrow, hstr⟩ := h q (List.mem_cons_self q rest)
    obtain ⟨b, hb, hbiff⟩ := anyMatch_spec (r := r) hstr
    obtain ⟨nd', hnd', hsub, hiff⟩ :=
      ih (fun q' hq' => h q' (List.mem_cons_of_mem _ hq'))
    have hprop : (∃ row', extract q.1 q.2 = .ok row' ∧
        ∃ s, Value.str s ∈ row' ∧ reMatch r s = true) ↔ b = true := by
      rw [hbiff]
      constructor
      · rintro ⟨row', hrow', hs⟩
        rw [hrow] at hrow'
        injection hrow' with he
        exact he ▸ hs
      · intro hs
        exact ⟨row, hrow, hs⟩
    have hstep : filterMatches extract r (q :: rest) =
        .ok (if b then q :: nd' else nd') := by
      show ((extract q.1 q.2 >>= fun row => anyMatch r row >>=
        fun b => filterMatches extract r rest >>=
          fun tail => Except.ok (if b then q :: tail else tail)) :
          Except PyErr Snapshot) = _
      rw [hrow]
      simp only [Bind.bind, Except.bind]
      rw [hb, hnd']
    cases b with
    | true =>
      refine ⟨q :: nd', by simpa using hstep, hsub.cons₂ q, ?_⟩
      intro q' hq'
      rcases List.mem_cons.mp hq' with rfl | hq'
      · simp only [List.mem_cons, true_or, true_iff]
        exact hprop.mpr rfl
      · rw [List.mem_cons]
        rw [hiff q' hq']
        constructor
        · rintro (rfl | hin)
          · exact hprop.mpr rfl
          · exact hin
        · intro hin
          exact Or.inr hin
    | false =>
      refine ⟨nd', by simpa using hstep, hsub.cons q, ?_⟩
      intro q' hq'
      rcases List.mem_cons.mp hq' with rfl | hq'
      · constructor
        · intro hin
          exact hiff q' (hsub.mem hin) |>.mp hin
        · intro hp
          exact absurd (hprop.mp hp) (by simp)
      · exact hiff q' hq'

/-- C5 counterexample: the claim's concrete test — pattern `"^R"` with
two jobs whose `job_state` is `"R"` and `"Q"` — retains *no* record:
the extractor output contains the translated state `"running"`, not the
raw code `"R"`, and `"^R"` matches neither `"running"` (case-sensitive)
nor any other column, so the claimed retention of exactly the `"R"` job
is false on the code. -/
theorem shallow_search_state_is_translated :
    pyCompile "^R" = .ok (.seq .bol (.char 'R')) ∧
    filterMatches extract_row_job (.seq .bol (.char 'R'))
      [("1", .dict [("attributes", .dict [("job_state", .str "R"),
          ("queue", .str "workq"), ("job_name", .str "n1"),
          ("job_owner", .str "o1")])]),
       ("2", .dict [("attributes", .dict [("job_state", .str "Q"),
          ("queue", .str "workq"), ("job_name", .str "n2"),
          ("job_owner", .str "o2")])])] = .ok [] ∧
    on_input_changed_job "^R"
      [("1", .dict [("attributes", .dict [("job_state", .str "R"),
          ("queue", .str "workq"), ("job_name", .str "n1"),
          ("job_owner", .str "o1")])]),
       ("2", .dict [("attributes", .dict [("job_state", .str "Q"),
          ("queue", .str "workq"), ("job_name", .str "n2"),
          ("job_owner", .str "o2")])])]
      [[Value.str "prev"]] = ⟨[], none⟩ := by
  refine ⟨by decide, by decide, by decide⟩

/-- C5 (amended): for a valid compiled pattern and a snapshot whose
extracted rows consist of strings and whose IDs have computable sort
keys, the handler raises nothing and a record is retained exactly when
the pattern matches — anchored at the start, any matching prefix
suffices — the entity ID or one of the record's extractor output
column values *as they appear in the row* (in particular the job state
appears as its translated label); the table then shows the rendered
retained rows. Non-string column values would instead raise
`TypeError` (see `anyMatch`). -/
theorem shallow_search_spec (p : String) (r : Regex) (data : Snapshot)
    (st : List (List Value))
    (hc : pyCompile p = .ok r)
    (hall : ∀ q ∈ data, ∃ row, extract_row_job q.1 q.2 = .ok row ∧
      ∀ c ∈ row, ∃ s, c = .str s)
    (hkeys : ∀ q ∈ data, ∃ k, natural_sort_key q.1 = .ok k) :
    ∃ nd rows, filterMatches extract_row_job r data = .ok nd ∧
      (∀ q ∈ data, (q ∈ nd ↔ ∃ row, extract_row_job q.1 q.2 = .ok row ∧
        ∃ s, Value.str s ∈ row ∧ reMatch r s = true)) ∧
      update_job_table nd = .ok rows ∧
      on_input_changed_job p data st = ⟨rows, none⟩ := by
  obtain ⟨nd, hnd, hsub, hiff⟩ := filterMatches_spec (r := r) hall
  have hside : ∀ q ∈ nd, ∃ row, extract_row_job q.1 q.2 = .ok row ∧
      ∃ k, rowSortKey row = .ok k := by
    intro q hq
    have hqdata : q ∈ data := hsub.mem hq
    obtain ⟨row, hrow, -⟩ := hall q hqdata
    obtain ⟨k, hk⟩ := hkeys q hqdata
    obtain ⟨rest, hrest⟩ := extract_row_job_head hrow
    refine ⟨row, hrow, k, ?_⟩
    rw [hrest]
    exact hk
  obtain ⟨rows, hrows⟩ := @renderTable_ok_of extract_row_job nd hside
  refine ⟨nd, rows, hnd, fun q hq => hiff q hq, hrows, ?_⟩
  simp only [on_input_changed_job, onInputChanged, hc, Bind.bind,
    Except.bind, hnd, hrows]

/-- Every element of a row built from strings is a string value. -/
theorem all_str_row (l : List String) :
    ∀ c ∈ l.map Value.str, ∃ s, c = Value.str s := by
  intro c hc
  obtain ⟨s, -, rfl⟩ := List.mem_map.mp hc
  exact ⟨s, rfl⟩

/-- C5 witness: pattern `"^run"` retains exactly the running job (its
state column is the translated label `"running"`, matched on a proper
prefix). -/
theorem shallow_search_spec_witness :
    ∃ nd rows, filterMatches extract_row_job (.seq .bol (.seq (.char 'r')
        (.seq (.char 'u') (.char 'n'))))
      [("1", .dict [("attributes", .dict [("job_state", .str "R"),
          ("queue", .str "workq"), ("job_name", .str "n1"),
          ("job_owner", .str "o1")])]),
       ("2", .dict [("attributes", .dict [("job_state", .str "Q"),
          ("queue", .str "workq"), ("job_name", .str "n2"),
          ("job_owner", .str "o2")])])] = .ok nd ∧
      (∀ q ∈ ([("1", Value.dict [("attributes", Value.dict
          [("job_state", Value.str "R"), ("queue", Value.str "workq"),
           ("job_name", Value.str "n1"), ("job_owner", Value.str "o1")])]),
        ("2", Value.dict [("attributes", Value.dict
          [("job_state", Value.str "Q"), ("queue", Value.str "workq"),
           ("job_name", Value.str "n2"), ("job_owner", Value.str "o2")])])] :
          Snapshot),
        (q ∈ nd ↔ ∃ row, extract_row_job q.1 q.2 = .ok row ∧
          ∃ s, Value.str s ∈ row ∧
            reMatch (.seq .bol (.seq (.char 'r')
              (.seq (.char 'u') (.char 'n')))) s = true)) ∧
      update_job_table nd = .ok rows ∧
      on_input_changed_job "^run"
        [("1", .dict [("attributes", .dict [("job_state", .str "R"),
            ("queue", .str "workq"), ("job_name", .str "n1"),
            ("job_owner", .str "o1")])]),
         ("2", .dict [("attributes", .dict [("job_state", .str "Q"),
            ("queue", .str "workq"), ("job_name", .str "n2"),
            ("job_owner", .str "o2")])])]
        [[Value.str "prev"]] = ⟨rows, none⟩ :=
  shallow_search_spec "^run" (.seq .bol (.seq (.char 'r')
      (.seq (.char 'u') (.char 'n'))))
    [("1", .dict [("attributes", .dict [("job_state", .str "R"),
        ("queue", .str "workq"), ("job_name", .str "n1"),
        ("job_owner", .str "o1")])]),
     ("2", .dict [("attributes", .dict [("job_state", .str "Q"),
        ("queue", .str "workq"), ("job_name", .str "n2"),
        ("job_owner", .str "o2")])])]
    [[Value.str "prev"]]
    (by decide)
    (by
      intro q hq
      rcases List.mem_cons.mp hq with rfl | hq
      · exact ⟨["1", "workq", "running", "n1", "o1",
          "(not running)"].map Value.str, by decide, all_str_row _⟩
      rcases List.mem_cons.mp hq with rfl | hq
      · exact ⟨["2", "workq", "queued", "n2", "o2",
          "(not running)"].map Value.str, by decide, all_str_row _⟩
      cases hq)
    (by
      intro q hq
      rcases List.mem_cons.mp hq with rfl | hq
      · exact ⟨[.s "", .n 1, .s ""], by decide⟩
      rcases List.mem_cons.mp hq with rfl | hq
      · exact ⟨[.s "", .n 2, .s ""], by decide⟩
      cases hq)

/-! ### C7: ordering of the list views -/

/-- C7 counterexample: two snapshots holding the same entries (a
permutation — the same dict with a different insertion order) whose IDs
`"1"` and `"01"` have *equal* natural sort keys render in different row
orders: `sorted` is stable, so tied rows keep iteration order. The
claim's "independently of the snapshot's insertion or iteration order"
is therefore false in general. -/
theorem update_job_table_order_dependent :
    List.Perm
      [("1", Value.dict [("attributes", Value.dict
          [("job_state", Value.str "R"), ("queue", Value.str "a"),
           ("job_name", Value.str "r1"), ("job_owner", Value.str "y")])]),
       ("01", Value.dict [("attributes", Value.dict
          [("job_state", Value.str "R"), ("queue", Value.str "a"),
           ("job_name", Value.str "r2"), ("job_owner", Value.str "y")])])]
      [("01", Value.dict [("attributes", Value.dict
          [("job_state", Value.str "R"), ("queue", Value.str "a"),
           ("job_name", Value.str "r2"), ("job_owner", Value.str "y")])]),
       ("1", Value.dict [("attributes", Value.dict
          [("job_state", Value.str "R"), ("queue", Value.str "a"),
           ("job_name", Value.str "r1"), ("job_owner", Value.str "y")])])] ∧
    natural_sort_key "1" = natural_sort_key "01" ∧
    update_job_table
      [("1", Value.dict [("attributes", Value.dict
          [("job_state", Value.str "R"), ("queue", Value.str "a"),
           ("job_name", Value.str "r1"), ("job_owner", Value.str "y")])]),
       ("01", Value.dict [("attributes", Value.dict
          [("job_state", Value.str "R"), ("queue", Value.str "a"),
           ("job_name", Value.str "r2"), ("job_owner", Value.str "y")])])] ≠
    update_job_table
      [("01", Value.dict [("attributes", Value.dict
          [("job_state", Value.str "R"), ("queue", Value.str "a"),
           ("job_name", Value.str "r2"), ("job_owner", Value.str "y")])]),
       ("1", Value.dict [("attributes", Value.dict
          [("job_state", Value.str "R"), ("queue", Value.str "a"),
           ("job_name", Value.str "r1"), ("job_owner", Value.str "y")])])] := by
  refine ⟨by decide, by decide, by decide⟩

/-- C7 (amended): the job-list and queue-list views emit one row per
entity, sorted by the natural sort key of the ID column (along the
rendered order the keys never decrease); and whenever the IDs'
natural sort keys are pairwise *distinct*, the rendered rows are
independent of the snapshot's insertion or iteration order. With tied
keys (e.g. `"1"` vs `"01"`), tied rows keep iteration order. -/
theorem list_view_ordering (data data' : Snapshot)
    (hperm : data.Perm data')
    (hne : data.Pairwise (fun a b =>
      natural_sort_key a.1 ≠ natural_sort_key b.1)) :
    (∀ rows rows', update_job_table data = .ok rows →
      update_job_table data' = .ok rows' →
      rows = rows' ∧ rows.length = data.length ∧
      rows.Pairwise (fun r r' => ∀ k k', rowSortKey r = .ok k →
        rowSortKey r' = .ok k' → keyLtb k' k = false)) ∧
    (∀ rows rows', update_queue_table data = .ok rows →
      update_queue_table data' = .ok rows' →
      rows = rows' ∧ rows.length = data.length ∧
      rows.Pairwise (fun r r' => ∀ k k', rowSortKey r = .ok k →
        rowSortKey r' = .ok k' → keyLtb k' k = false)) := by
  constructor
  · intro rows rows' h h'
    exact ⟨renderTable_det (fun id v row hr => extract_row_job_head hr)
        hperm h h' hne,
      renderTable_length h, renderTable_sorted h⟩
  · intro rows rows' h h'
    exact ⟨renderTable_det (fun id v row hr => extract_row_queue_head hr)
        hperm h h' hne,
      renderTable_length h, renderTable_sorted h⟩

/-- C7 witness: the snapshot with IDs `"2"`, `"10"`, `"1"` renders the
job list in ID order `["1", "2", "10"]`, identically for a rotated
iteration order. -/
theorem list_view_ordering_witness :
    (update_job_table
      [("2", Value.dict [("attributes", Value.dict
          [("job_state", Value.str "R"), ("queue", Value.str "a"),
           ("job_name", Value.str "x"), ("job_owner", Value.str "y")])]),
       ("10", Value.dict [("attributes", Value.dict
          [("job_state", Value.str "Q"), ("queue", Value.str "a"),
           ("job_name", Value.str "x"), ("job_owner", Value.str "y")])]),
       ("1", Value.dict [("attributes", Value.dict
          [("job_state", Value.str "R"), ("queue", Value.str "a"),
           ("job_name", Value.str "x"), ("job_owner", Value.str "y")])])]).map
      (fun rows => rows.map (fun r => r.head?)) =
      .ok [some (Value.str "1"), some (Value.str "2"),
        some (Value.str "10")] ∧
    update_job_table
      [("2", Value.dict [("attributes", Value.dict
          [("job_state", Value.str "R"), ("queue", Value.str "a"),
           ("job_name", Value.str "x"), ("job_owner", Value.str "y")])]),
       ("10", Value.dict [("attributes", Value.dict
          [("job_state", Value.str "Q"), ("queue", Value.str "a"),
           ("job_name", Value.str "x"), ("job_owner", Value.str "y")])]),
       ("1", Value.dict [("attributes", Value.dict
          [("job_state", Value.str "R"), ("queue", Value.str "a"),
           ("job_name", Value.str "x"), ("job_owner", Value.str "y")])])] =
    update_job_table
      [("1", Value.dict [("attributes", Value.dict
          [("job_state", Value.str "R"), ("queue", Value.str "a"),
           ("job_name", Value.str "x"), ("job_owner", Value.str "y")])]),
       ("2", Value.dict [("attributes", Value.dict
          [("job_state", Value.str "R"), ("queue", Value.str "a"),
           ("job_name", Value.str "x"), ("job_owner", Value.str "y")])]),
       ("10", Value.dict [("attributes", Value.dict
          [("job_state", Value.str "Q"), ("queue", Value.str "a"),
           ("job_name", Value.str "x"), ("job_owner", Value.str "y")])])] := by
  constructor
  · decide
  · have h := (list_view_ordering
      [("2", Value.dict [("attributes", Value.dict
          [("job_state", Value.str "R"), ("queue", Value.str "a"),
           ("job_name", Value.str "x"), ("job_owner", Value.str "y")])]),
       ("10", Value.dict [("attributes", Value.dict
          [("job_state", Value.str "Q"), ("queue", Value.str "a"),
           ("job_name", Value.str "x"), ("job_owner", Value.str "y")])]),
       ("1", Value.dict [("attributes", Value.dict
          [("job_state", Value.str "R"), ("queue", Value.str "a"),
           ("job_name", Value.str "x"), ("job_owner", Value.str "y")])])]
      [("1", Value.dict [("attributes", Value.dict
          [("job_state", Value.str "R"), ("queue", Value.str "a"),
           ("job_name", Value.str "x"), ("job_owner", Value.str "y")])]),
       ("2", Value.dict [("attributes", Value.dict
          [("job_state", Value.str "R"), ("queue", Value.str "a"),
           ("job_name", Value.str "x"), ("job_owner", Value.str "y")])]),
       ("10", Value.dict [("attributes", Value.dict
          [("job_state", Value.str "Q"), ("queue", Value.str "a"),
           ("job_name", Value.str "x"), ("job_owner", Value.str "y")])])]
      (by decide) (by decide)).1
    obtain ⟨rows, hrows⟩ :
        ∃ rows, update_job_table
          [("2", Value.dict [("attributes", Value.dict
              [("job_state", Value.str "R"), ("queue", Value.str "a"),
               ("job_name", Value.str "x"), ("job_owner", Value.str "y")])]),
           ("10", Value.dict [("attributes", Value.dict
              [("job_state", Value.str "Q"), ("queue", Value.str "a"),
               ("job_name", Value.str "x"), ("job_owner", Value.str "y")])]),
           ("1", Value.dict [("attributes", Value.dict
              [("job_state", Value.str "R"), ("queue", Value.str "a"),
               ("job_name", Value.str "x"), ("job_owner", Value.str "y")])])] =
            .ok rows := ⟨_, rfl⟩
    obtain ⟨rows', hrows'⟩ :
        ∃ rows', update_job_table
          [("1", Value.dict [("attributes", Value.dict
              [("job_state", Value.str "R"), ("queue", Value.str "a"),
               ("job_name", Value.str "x"), ("job_owner", Value.str "y")])]),
           ("2", Value.dict [("attributes", Value.dict
              [("job_state", Value.str "R"), ("queue", Value.str "a"),
               ("job_name", Value.str "x"), ("job_owner", Value.str "y")])]),
           ("10", Value.dict [("attributes", Value.dict
              [("job_state", Value.str "Q"), ("queue", Value.str "a"),
               ("job_name", Value.str "x"), ("job_owner", Value.str "y")])])] =
            .ok rows' := ⟨_, rfl⟩
    rw [hrows, hrows', (h rows rows' hrows hrows').1]

/-! ### C9: idempotence of record normalization -/

/-- Evaluation helper: `Char.ofNat` on the code points of the lower-case
letters. -/
theorem char_ofNat_lower_toNat (n : Nat) (h1 : 97 ≤ n) (h2 : n ≤ 122) :
    (Char.ofNat n).toNat = n := by
  interval_cases n <;> decide

/-- `Char.toLower` as an `if` on the code point. -/
theorem char_toLower_eq (c : Char) :
    c.toLower = if c.toNat ≥ 65 ∧ c.toNat ≤ 90
      then Char.ofNat (c.toNat + 32) else c := rfl

/-- `Char.toLower` is idempotent. -/
theorem char_toLower_idem (c : Char) : c.toLower.toLower = c.toLower := by
  rw [char_toLower_eq c]
  by_cases h : c.toNat ≥ 65 ∧ c.toNat ≤ 90
  · rw [if_pos h, char_toLower_eq]
    have h2 : (Char.ofNat (c.toNat + 32)).toNat = c.toNat + 32 :=
      char_ofNat_lower_toNat _ (by omega) (by omega)
    rw [h2, if_neg (by omega)]
  · rw [if_neg h, char_toLower_eq, if_neg h]

/-- `str.lower()` is idempotent (ASCII model). -/
theorem pyLower_idem (s : String) : pyLower (pyLower s) = pyLower s := by
  show String.mk ((s.data.map Char.toLower).map Char.toLower) =
    String.mk (s.data.map Char.toLower)
  rw [List.map_map]
  exact congrArg String.mk (List.map_congr_left (fun c _ => by
    simp only [Function.comp_apply, char_toLower_idem c]))

/-- The key canonicalization (lower-case plus the `rerunable` synonym)
is idempotent. -/
theorem normKey_idem (k : String) : normKey (normKey k) = normKey k := by
  unfold normKey
  by_cases h : pyLower k = "rerunable"
  · simp only [if_pos h]
    decide
  · simp only [if_neg h]
    rw [pyLower_idem]
    rw [if_neg h]

/-- `translate_json` leaves any string other than the two literals
unchanged. -/
theorem translate_json_str (s : String) (h1 : s ≠ "True")
    (h2 : s ≠ "False") : translate_json (Value.str s) = Value.str s := by
  rw [translate_json.eq_def]
  split
  · rename_i s_eq
    injection s_eq with s_eq
    exact absurd s_eq h1
  · rename_i s_eq
    injection s_eq with s_eq
    exact absurd s_eq h2
  · rename_i kvs heq
    exact Value.noConfusion heq
  · rename_i vs heq
    exact Value.noConfusion heq
  · rfl

mutual

/-- `translate_json` is idempotent: a second pass changes nothing. -/
theorem translate_json_idem : ∀ (v : Value),
    translate_json (translate_json v) = translate_json v
  | .null => rfl
  | .bool _ => rfl
  | .int _ => rfl
  | .str s => by
    by_cases h1 : s = "True"
    · subst h1; rfl
    by_cases h2 : s = "False"
    · subst h2; rfl
    rw [translate_json_str s h1 h2, translate_json_str s h1 h2]
  | .list vs => by
    simp only [translate_json, translateVList_idem vs]
  | .dict kvs => by
    simp only [translate_json, translateVDict_idem kvs]

/-- Idempotence of the list walk. -/
theorem translateVList_idem : ∀ (vs : List Value),
    translateVList (translateVList vs) = translateVList vs
  | [] => rfl
  | v :: vs => by
    simp only [translateVList, translate_json_idem v, translateVList_idem vs]

/-- Idempotence of the dict walk. -/
theorem translateVDict_idem : ∀ (kvs : List (String × Value)),
    translateVDict (translateVDict kvs) = translateVDict kvs
  | [] => rfl
  | (k, v) :: kvs => by
    simp only [translateVDict, translate_json_idem v, translateVDict_idem kvs]

end

/-- Lookup commutes with the dict walk of `translate_json`. -/
theorem alookup_translateVDict (l : List (String × Value)) (k : String) :
    alookup (translateVDict l) k = (alookup l k).map translate_json := by
  induction l with
  | nil => rfl
  | cons p rest ih =>
    obtain ⟨k', v⟩ := p
    simp only [translateVDict, alookup]
    by_cases h : k' = k
    · rw [if_pos h, if_pos h]
      rfl
    · rw [if_neg h, if_neg h]
      exact ih

/-- The dict walk of `translate_json` keeps the keys. -/
theorem translateVDict_keys (l : List (String × Value)) :
    (translateVDict l).map (·.1) = l.map (·.1) := by
  induction l with
  | nil => rfl
  | cons p rest ih =>
    obtain ⟨k', v⟩ := p
    simp only [translateVDict, List.map_cons, ih]

/-- After `d[k] = v`, looking up `k` yields `v`. -/
theorem alookup_setKey_self (l : List (String × Value)) (k : String)
    (v : Value) : alookup (setKey l k v) k = some v := by
  induction l with
  | nil => simp [setKey, alookup]
  | cons p rest ih =>
    obtain ⟨k', v'⟩ := p
    simp only [setKey]
    by_cases h : k' = k
    · simp [if_pos h, alookup]
    · rw [if_neg h]
      simp only [alookup, if_neg h]
      exact ih

/-- Writing back the value already stored at `k` leaves the dict
unchanged. -/
theorem setKey_eq_of_lookup (l : List (String × Value)) (k : String)
    (v : Value) (h : alookup l k = some v) : setKey l k v = l := by
  induction l with
  | nil => exact Option.noConfusion h
  | cons p rest ih =>
    obtain ⟨k', v'⟩ := p
    simp only [alookup] at h
    simp only [setKey]
    by_cases hk : k' = k
    · rw [if_pos hk] at h
      injection h with hv
      rw [if_pos hk, ← hk, ← hv]
    · rw [if_neg hk] at h
      rw [if_neg hk, ih h]

/-- The keys after `d[k] = v` are the old keys plus `k`. -/
theorem mem_keys_setKey (l : List (String × Value)) (k : String) (v : Value)
    (k' : String) :
    k' ∈ (setKey l k v).map (·.1) ↔ k' ∈ l.map (·.1) ∨ k' = k := by
  induction l with
  | nil => simp [setKey]
  | cons p rest ih =>
    obtain ⟨k₀, v₀⟩ := p
    simp only [setKey]
    by_cases h : k₀ = k
    · rw [if_pos h]
      subst h
      simp only [List.map_cons, List.mem_cons]
      tauto
    · rw [if_neg h]
      simp only [List.map_cons, List.mem_cons, ih]
      tauto

/-- `d[k] = v` preserves distinctness of the keys. -/
theorem nodup_keys_setKey (l : List (String × Value)) (k : String)
    (v : Value) (h : (l.map (·.1)).Nodup) :
    ((setKey l k v).map (·.1)).Nodup := by
  induction l with
  | nil => simp [setKey]
  | cons p rest ih =>
    obtain ⟨k₀, v₀⟩ := p
    simp only [List.map_cons, List.nodup_cons] at h
    simp only [setKey]
    by_cases hk : k₀ = k
    · rw [if_pos hk]
      simp only [List.map_cons, List.nodup_cons]
      exact ⟨fun hin => h.1 (by rw [hk]; exact hin), h.2⟩
    · rw [if_neg hk]
      simp only [List.map_cons, List.nodup_cons]
      refine ⟨fun hmem => ?_, ih h.2⟩
      rcases (mem_keys_setKey rest k v k₀).mp hmem with hin | rfl
      · exact h.1 hin
      · exact hk rfl

/-- The attribute-rebuild fold produces distinct keys, each a fixpoint
of the canonicalization. -/
theorem fold_setKey_keys :
    ∀ (kvs acc : List (String × Value)),
    (acc.map (·.1)).Nodup →
    (∀ k ∈ acc.map (·.1), normKey k = k) →
    (((kvs.foldl (fun acc kv => setKey acc (normKey kv.1) kv.2) acc).map
        (·.1)).Nodup ∧
      ∀ k ∈ (kvs.foldl (fun acc kv => setKey acc (normKey kv.1) kv.2)
        acc).map (·.1), normKey k = k) := by
  intro kvs
  induction kvs with
  | nil => exact fun acc h1 h2 => ⟨h1, h2⟩
  | cons p rest ih =>
    intro acc h1 h2
    simp only [List.foldl_cons]
    refine ih (setKey acc (normKey p.1) p.2) (nodup_keys_setKey _ _ _ h1) ?_
    intro k hk
    rcases (mem_keys_setKey acc (normKey p.1) p.2 k).mp hk with hin | rfl
    · exact h2 k hin
    · exact normKey_idem p.1

/-- Assigning a fresh key appends the pair. -/
theorem setKey_append (l : List (String × Value)) (k : String) (v : Value)
    (h : k ∉ l.map (·.1)) : setKey l k v = l ++ [(k, v)] := by
  induction l with
  | nil => rfl
  | cons p rest ih =>
    obtain ⟨k₀, v₀⟩ := p
    simp only [List.map_cons, List.mem_cons, not_or] at h
    simp only [setKey, if_neg (fun he : k₀ = k => h.1 he.symm),
      List.cons_append, ih h.2]

/-- On an attribute dict whose keys are already distinct fixpoints of
the canonicalization, the rebuild fold is the identity. -/
theorem fold_setKey_fixed :
    ∀ (kvs acc : List (String × Value)),
    ((acc.map (·.1) ++ kvs.map (·.1)).Nodup) →
    (∀ k ∈ kvs.map (·.1), normKey k = k) →
    kvs.foldl (fun acc kv => setKey acc (normKey kv.1) kv.2) acc =
      acc ++ kvs := by
  intro kvs
  induction kvs with
  | nil => intro acc _ _; simp
  | cons p rest ih =>
    intro acc hnd hfix
    obtain ⟨k, v⟩ := p
    have hk : normKey k = k := hfix k (by simp)
    have hknotin : k ∉ acc.map (·.1) := by
      intro hin
      exact (List.nodup_append.mp hnd).2.2 hin (by simp)
    simp only [List.foldl_cons, hk]
    rw [setKey_append acc k v hknotin]
    rw [ih (acc ++ [(k, v)]) ?_ (fun x hx => hfix x (by simp [hx]))]
    · simp
    · simp only [List.map_append, List.map_cons, List.map_nil,
        List.append_assoc, List.singleton_append]
      simpa using hnd

/-- C9: normalizing an already-normalized record yields the same
record — the key canonicalization of the `JobDetailScreen.data` setter
combined with the `translate_json` value coercion is idempotent on its
own output. -/
theorem normalization_idempotent (r x : List (String × Value))
    (h : normalizeRecord r = .ok x) :
    normalizeRecord x = .ok x := by
  obtain ⟨y, hy, hx⟩ : ∃ y, set_data r = .ok y ∧ x = translateVDict y := by
    unfold normalizeRecord at h
    cases hsd : set_data r with
    | error e =>
      rw [hsd] at h
      simp only [Except.map] at h
      exact Except.noConfusion h
    | ok y =>
      rw [hsd] at h
      simp only [Except.map] at h
      injection h with h
      exact ⟨y, rfl, h.symm⟩
  obtain ⟨kvs, hkvs, hyv⟩ : ∃ kvs,
      asDict (agetD r "attributes" (.dict [])) = .ok kvs ∧
      y = setKey r "attributes" (.dict (kvs.foldl
        (fun acc kv => setKey acc (normKey kv.1) kv.2) [])) := by
    unfold set_data at hy
    cases hd : asDict (agetD r "attributes" (.dict [])) with
    | error e =>
      rw [hd] at hy
      simp only [Bind.bind, Except.bind] at hy
      exact Except.noConfusion hy
    | ok kvs =>
      rw [hd] at hy
      simp only [Bind.bind, Except.bind] at hy
      injection hy with hy
      exact ⟨kvs, rfl, hy.symm⟩
  obtain ⟨hN1, hN2⟩ := fold_setKey_keys kvs [] (by simp) (by simp)
  have hlook : alookup x "attributes" =
      some (.dict (translateVDict (kvs.foldl
        (fun acc kv => setKey acc (normKey kv.1) kv.2) []))) := by
    rw [hx, alookup_translateVDict, hyv, alookup_setKey_self]
    rfl
  have hfold2 : (translateVDict (kvs.foldl
        (fun acc kv => setKey acc (normKey kv.1) kv.2) [])).foldl
      (fun acc kv => setKey acc (normKey kv.1) kv.2) [] =
      translateVDict (kvs.foldl
        (fun acc kv => setKey acc (normKey kv.1) kv.2) []) := by
    have hmain := fold_setKey_fixed (translateVDict (kvs.foldl
        (fun acc kv => setKey acc (normKey kv.1) kv.2) [])) []
      (by simpa [translateVDict_keys] using hN1)
      (by simpa [translateVDict_keys] using hN2)
    simpa using hmain
  have hsd2 : set_data x = .ok x := by
    unfold set_data
    have hag : agetD x "attributes" (.dict []) =
        .dict (translateVDict (kvs.foldl
          (fun acc kv => setKey acc (normKey kv.1) kv.2) [])) := by
      unfold agetD
      rw [hlook]
      rfl
    rw [hag]
    show Except.ok (setKey x "attributes" (Value.dict _)) = Except.ok x
    rw [hfold2, setKey_eq_of_lookup x "attributes" _ hlook]
  unfold normalizeRecord
  rw [hsd2]
  show Except.ok (translateVDict x) = Except.ok x
  rw [hx, translateVDict_idem]

/-- C9 witness: normalizing the record whose attributes are
`{"Rerunable": "False"}` gives `{"rerunnable": true}` (with the source's
`bool("False")` behaviour), and normalizing that output returns it
unchanged. -/
theorem normalization_idempotent_witness :
    normalizeRecord
      [("attributes", Value.dict [("rerunnable", Value.bool true)])] =
      .ok [("attributes", Value.dict [("rerunnable", Value.bool true)])] :=
  normalization_idempotent
    [("attributes", Value.dict [("Rerunable", Value.str "False")])]
    [("attributes", Value.dict [("rerunnable", Value.bool true)])]
    (by decide)

end JQM
